import Mathlib

/-!
Verification of the RTCP compound-packet layer (`src/rtp/src/rtcp/mod.rs`).

The file shallowly embeds the code of `mod.rs` (the compound parser
`read_packet`, the compound serializer `write_packet`, the merge/pack engine
`pack`/`merge`, and `pad_bytes_to_word`).  The submodules `header.rs`,
`list.rs`, `sr.rs`, `rr.rs`, `sdes.rs`, `bb.rs` and `fmt.rs` are not part of
the sources; the definitions embedding them are modelled from the spec
(sections 3, 4.1, 4.2, 4.3 and 6) and are marked `Modelled from the spec:`.

Machine integers are modelled as `Nat`; `usize` subtraction that can wrap in
the source is modelled with an explicit `% 2^64` (`sub64`); the `as u8` and
`u16` casts are modelled with `% 256` and `% 65536`.  Buffers are `List Nat`.
Rust panics (out-of-bounds indexing, failed asserts) are modelled as `none`
results of `Option`-valued functions.
-/

namespace Rtcp

/-- Modulus of `usize` (the target is 64-bit). -/
def usizeMod : Nat := 2 ^ 64

/-- Wrapping `usize` subtraction: Rust release-mode `a - b` on `usize`. -/
def sub64 (a b : Nat) : Nat := (a + (usizeMod - b % usizeMod)) % usizeMod

theorem sub64_eq (a b : Nat) (hb : b ≤ a) (ha : a < usizeMod) :
    sub64 a b = a - b := by
  have hbm : b % usizeMod = b := Nat.mod_eq_of_lt (lt_of_le_of_lt hb ha)
  unfold sub64
  rw [hbm]
  have h1 : a + (usizeMod - b) = usizeMod + (a - b) := by
    unfold usizeMod at *
    omega
  rw [h1, Nat.add_mod_left]
  exact Nat.mod_eq_of_lt (by omega)

/-- Big-endian serialization of `v` into `w` bytes (low byte last). -/
def beBytes : Nat → Nat → List Nat
  | 0, _ => []
  | w + 1, v => beBytes w (v / 256) ++ [v % 256]

/-- Big-endian value of a byte list. -/
def beVal (bs : List Nat) : Nat := bs.foldl (fun a b => a * 256 + b) 0

@[simp] theorem beBytes_length (w v : Nat) : (beBytes w v).length = w := by
  induction w generalizing v with
  | zero => rfl
  | succ k ih => simp [beBytes, ih]

theorem beVal_append_singleton (bs : List Nat) (b : Nat) :
    beVal (bs ++ [b]) = beVal bs * 256 + b := by
  simp [beVal, List.foldl_append]

theorem beVal_beBytes (w v : Nat) (h : v < 256 ^ w) : beVal (beBytes w v) = v := by
  induction w generalizing v with
  | zero =>
    simp [beBytes, beVal]
    omega
  | succ k ih =>
    rw [beBytes, beVal_append_singleton, ih (v / 256) (by
      have : 256 ^ (k + 1) = 256 ^ k * 256 := by ring
      omega)]
    omega

/-- Overwrite `bs` into `buf` starting at `off` (the effect of writing the
byte slice `bs` at `&mut buf[off..]`; callers establish the bounds). -/
def copyAt (buf : List Nat) (off : Nat) (bs : List Nat) : List Nat :=
  buf.take off ++ bs ++ buf.drop (off + bs.length)

theorem copyAt_length (buf : List Nat) (off : Nat) (bs : List Nat)
    (h : off + bs.length ≤ buf.length) : (copyAt buf off bs).length = buf.length := by
  simp [copyAt]
  omega

/-- `pad_bytes_to_word` from `mod.rs`: pad up to the next word (4 byte)
boundary.  The addition is a `usize` addition, hence the `% 2^64`. -/
def pad_bytes_to_word (n : Nat) : Nat :=
  let pad := 4 - n % 4
  if pad = 4 then n else (n + pad) % usizeMod

theorem pad_bytes_to_word_eq (n : Nat) (h : n + 3 < usizeMod) :
    pad_bytes_to_word n = 4 * ((n + 3) / 4) := by
  unfold pad_bytes_to_word
  have h4 : n % 4 < 4 := Nat.mod_lt _ (by omega)
  by_cases hz : n % 4 = 0
  · simp [hz]
    omega
  · have : ¬(4 - n % 4 = 4) := by omega
    simp [this]
    rw [Nat.mod_eq_of_lt (by omega)]
    omega

/-- Modelled from the spec: the reception-report block of `rr.rs` (not in the
sources).  Seven fixed-width fields (§2 of the source file re-exports them);
a block occupies 6 words = 24 bytes when serialized (§3: "WordSized"). -/
structure ReceptionReport where
  ssrc : Nat
  fraction_lost : Nat
  packets_lost : Nat
  max_seq : Nat
  jitter : Nat
  last_sr_time : Nat
  last_sr_delay : Nat
deriving DecidableEq

/-- Modelled from the spec: a reception report occupies 6 words. -/
def ReceptionReport.word_size (_ : ReceptionReport) : Nat := 6

/-- Modelled from the spec: the sender statistics of `sr.rs` (not in the
sources): SSRC, NTP timestamp, RTP timestamp, packet and octet counts,
together 6 words. -/
structure SenderInfo where
  ssrc : Nat
  ntp_time : Nat
  rtp_time : Nat
  sender_packet_count : Nat
  sender_octet_count : Nat
deriving DecidableEq

/-- Modelled from the spec: `SenderReport` of `sr.rs` (not in the sources):
sender statistics plus a bounded report list of reception reports. -/
structure SenderReport where
  sender_info : SenderInfo
  reports : List ReceptionReport
deriving DecidableEq

/-- Modelled from the spec: `ReceiverReport` of `rr.rs` (not in the sources):
a bounded report list of reception reports. -/
structure ReceiverReport where
  reports : List ReceptionReport
deriving DecidableEq

/-- Modelled from the spec: one source-description chunk of `sdes.rs` (not in
the sources): an SSRC plus a list of (type, text) items.  Serialized as SSRC
(4 bytes), then the items as type byte, length byte, text bytes, then a
terminating zero byte, zero-padded to a word boundary. -/
structure Sdes where
  ssrc : Nat
  values : List (Nat × List Nat)
deriving DecidableEq

/-- Raw (unpadded) byte size of one source-description chunk. -/
def Sdes.raw_size (c : Sdes) : Nat :=
  4 + (c.values.map (fun v => 2 + v.2.length)).sum + 1

/-- Modelled from the spec: word size of a chunk, rounded up to a word
boundary with `pad_bytes_to_word` of `mod.rs`. -/
def Sdes.word_size (c : Sdes) : Nat := pad_bytes_to_word c.raw_size / 4

/-- Modelled from the spec: `Descriptions` of `sdes.rs` (not in the sources):
a bounded report list of source-description chunks. -/
structure Descriptions where
  reports : List Sdes
deriving DecidableEq

/-- Modelled from the spec: `Goodbye` of `bb.rs` (not in the sources): a
bounded report list of SSRCs (each one word, per `impl WordSized for Ssrc`
in `mod.rs`). -/
structure Goodbye where
  reports : List Nat
deriving DecidableEq

/-- Modelled from the spec: `ReportList::is_full` of `list.rs` (not in the
sources): the list holds its hard cap of 31 items (5-bit count field). -/
def listIsFull (l : List α) : Bool := decide (31 ≤ l.length)

/-- Modelled from the spec: `ReportList::append_all_possible` of `list.rs`
(not in the sources).  Moves items from the front of `other` into the end of
`self`, stopping when `self` reaches 31 items, `other` is exhausted, or the
next item's word size would exceed the remaining `word_budget`; returns the
two updated lists and the count moved. -/
def append_all_possible (ws : α → Nat) :
    List α → List α → Nat → List α × List α × Nat
  | self, [], _ => (self, [], 0)
  | self, x :: rest, budget =>
    if 31 ≤ self.length then (self, x :: rest, 0)
    else if budget < ws x then (self, x :: rest, 0)
    else
      let r := append_all_possible ws (self ++ [x]) rest (budget - ws x)
      (r.1, r.2.1, r.2.2 + 1)

theorem append_all_possible_spec (ws : α → Nat) (self other : List α) (budget : Nat) :
    ∃ k ≤ other.length,
      append_all_possible ws self other budget =
        (self ++ other.take k, other.drop k, k) ∧
      ((other.take k).map ws).sum ≤ budget ∧
      (self.length + k ≤ 31 ∨ k = 0) ∧
      (k = other.length ∨ 31 ≤ self.length + k ∨
        (∃ x, (other.drop k).head? = some x ∧
          budget < ((other.take k).map ws).sum + ws x)) := by
  induction other generalizing self budget with
  | nil =>
    exact ⟨0, by simp, by simp [append_all_possible], by simp, Or.inr rfl, Or.inl rfl⟩
  | cons x rest ih =>
    by_cases hfull : 31 ≤ self.length
    · refine ⟨0, by simp, ?_, by simp, Or.inr rfl, ?_⟩
      · simp [append_all_possible, hfull]
      · right; left; omega
    · by_cases hbud : budget < ws x
      · refine ⟨0, by simp, ?_, by simp, Or.inr rfl, ?_⟩
        · simp [append_all_possible, hfull, hbud]
        · exact Or.inr (Or.inr ⟨x, by simp, by simpa using hbud⟩)
      · obtain ⟨k, hk, heq, hsum, hcap, hstop⟩ := ih (self ++ [x]) (budget - ws x)
        refine ⟨k + 1, by simpa using hk, ?_, ?_, ?_, ?_⟩
        · simp only [append_all_possible, if_neg hfull, if_neg hbud, heq]
          simp [List.take_succ_cons, List.drop_succ_cons]
        · simp only [List.take_succ_cons, List.map_cons, List.sum_cons]
          omega
        · rcases hcap with h | h
          · left; simp at h; omega
          · left
            subst h
            simp at hfull ⊢
            omega
        · rcases hstop with h | h | ⟨y, hy, hylt⟩
          · left; simp [h]
          · right; left; simp at h; omega
          · right; right
            refine ⟨y, by simpa using hy, ?_⟩
            simp only [List.take_succ_cons, List.map_cons, List.sum_cons]
            omega

/-- The packet variants of `mod.rs` (`enum RtcpFb`). -/
inductive RtcpFb
  | senderReport (v : SenderReport)
  | receiverReport (v : ReceiverReport)
  | sourceDescription (v : Descriptions)
  | goodbye (v : Goodbye)
deriving DecidableEq

namespace RtcpFb

/-- Modelled from the spec: `length_words` of each variant (`sr.rs`, `rr.rs`,
`sdes.rs`, `bb.rs` are not in the sources): one header word, the fixed
payload words (6 sender-info words for a sender report, 1 SSRC word for a
receiver report, none for the others), plus the word sizes of the reports. -/
def length_words : RtcpFb → Nat
  | senderReport v => 1 + 6 + 6 * v.reports.length
  | receiverReport v => 1 + 1 + 6 * v.reports.length
  | sourceDescription v => 1 + (v.reports.map Sdes.word_size).sum
  | goodbye v => 1 + v.reports.length

/-- `RtcpFb::is_full` of `mod.rs`: dispatch to the report list. -/
def is_full : RtcpFb → Bool
  | senderReport v => listIsFull v.reports
  | receiverReport v => listIsFull v.reports
  | sourceDescription v => listIsFull v.reports
  | goodbye v => listIsFull v.reports

/-- `RtcpFb::is_empty` of `mod.rs`: a sender report is never empty, the
other variants are empty when their report list is. -/
def is_empty : RtcpFb → Bool
  | senderReport _ => false
  | receiverReport v => v.reports.isEmpty
  | sourceDescription v => v.reports.isEmpty
  | goodbye v => v.reports.isEmpty

/-- Number of reports carried (used for termination of the pack loop). -/
def rcount : RtcpFb → Nat
  | senderReport v => v.reports.length
  | receiverReport v => v.reports.length
  | sourceDescription v => v.reports.length
  | goodbye v => v.reports.length

/-- `RtcpFb::merge` of `mod.rs`: move reports of `other` into `self` for the
four compatible kind pairs, via `append_all_possible`; returns both updated
packets and whether anything moved. -/
def merge : RtcpFb → RtcpFb → Nat → RtcpFb × RtcpFb × Bool
  | senderReport sr, receiverReport rr, words_left =>
    let r := append_all_possible ReceptionReport.word_size sr.reports rr.reports words_left
    (senderReport { sr with reports := r.1 },
      receiverReport { rr with reports := r.2.1 }, decide (0 < r.2.2))
  | receiverReport r1, receiverReport r2, words_left =>
    let r := append_all_possible ReceptionReport.word_size r1.reports r2.reports words_left
    (receiverReport { r1 with reports := r.1 },
      receiverReport { r2 with reports := r.2.1 }, decide (0 < r.2.2))
  | sourceDescription s1, sourceDescription s2, words_left =>
    let r := append_all_possible Sdes.word_size s1.reports s2.reports words_left
    (sourceDescription { s1 with reports := r.1 },
      sourceDescription { s2 with reports := r.2.1 }, decide (0 < r.2.2))
  | goodbye g1, goodbye g2, words_left =>
    let r := append_all_possible (fun _ => 1) g1.reports g2.reports words_left
    (goodbye { g1 with reports := r.1 },
      goodbye { g2 with reports := r.2.1 }, decide (0 < r.2.2))
  | a, b, _ => (a, b, false)

/-- Placeholder packet used for the (guarded) `VecDeque` index accesses. -/
def dummy : RtcpFb := goodbye ⟨[]⟩

/-- The inner `for j in i + 1..len` pass of `RtcpFb::pack`: `steps` is the
number of `j` values left (`len - j`).  Returns the updated queue, the
accumulated `any_change`, and whether the `break 'outer` (capacity abort)
was taken. -/
def packInner (cap i : Nat) : Nat → Nat → List RtcpFb → Bool → List RtcpFb × Bool × Bool
  | 0, _, fb, anyChange => (fb, anyChange, false)
  | steps + 1, j, fb, anyChange =>
    let fbA := fb.getD i dummy
    if fbA.is_full || fbA.is_empty then (fb, anyChange, false)
    else if cap < fbA.length_words then (fb, anyChange, true)
    else
      let fbB := fb.getD j dummy
      let capacity := cap - fbA.length_words
      let m := fbA.merge fbB capacity
      packInner cap i steps (j + 1) ((fb.set i m.1).set j m.2.1) (anyChange || m.2.2)

/-- The `'outer` loop of `RtcpFb::pack`, with explicit fuel.  `len` is the
queue length captured before the loop; `none` models a panic (the
out-of-bounds `feedback[i]` access reachable for `len = 0`, where
`i == len - 1` wraps) or fuel exhaustion (shown unreachable separately).
The `word_capacity -= fb_a.length_words()` subtraction wraps (`sub64`). -/
def packGo : Nat → Nat → Nat → List RtcpFb → Nat → Option (List RtcpFb)
  | 0, _, _, _, _ => none
  | fuel + 1, cap, i, fb, len =>
    if i = sub64 len 1 then some fb
    else if len ≤ i then none
    else
      let r := packInner cap i (len - (i + 1)) (i + 1) fb false
      if r.2.2 then some r.1
      else if r.2.1 then packGo fuel cap i r.1 len
      else packGo fuel (sub64 cap ((r.1.getD i dummy).length_words)) (i + 1) r.1 len

/-- `RtcpFb::pack` of `mod.rs`: run the outer loop, then prune empty
packets (`feedback.retain(|f| !f.is_empty())`). -/
def pack (feedback : List RtcpFb) (word_capacity : Nat) : Option (List RtcpFb) :=
  (packGo (32 * feedback.length + 2) word_capacity 0 feedback feedback.length).map
    (List.filter (fun f => !f.is_empty))

end RtcpFb

/-- Modelled from the spec: serialization of the sender statistics (`sr.rs`
not in the sources): five big-endian fields, 24 bytes. -/
def SenderInfo.to_bytes (si : SenderInfo) : List Nat :=
  beBytes 4 si.ssrc ++ beBytes 8 si.ntp_time ++ beBytes 4 si.rtp_time ++
    beBytes 4 si.sender_packet_count ++ beBytes 4 si.sender_octet_count

/-- Modelled from the spec: serialization of a reception report (`rr.rs` not
in the sources): seven big-endian fields, 24 bytes (6 words). -/
def ReceptionReport.to_bytes (r : ReceptionReport) : List Nat :=
  beBytes 4 r.ssrc ++ beBytes 1 r.fraction_lost ++ beBytes 3 r.packets_lost ++
    beBytes 4 r.max_seq ++ beBytes 4 r.jitter ++ beBytes 4 r.last_sr_time ++
    beBytes 4 r.last_sr_delay

/-- Modelled from the spec: serialization of a source-description chunk
(`sdes.rs` not in the sources): SSRC, the (type, length, text) items, a
terminating zero byte, zero-padded to a word boundary (`pad_bytes_to_word`
of `mod.rs`); the length byte is the text length cast to `u8`. -/
def Sdes.to_bytes (c : Sdes) : List Nat :=
  let raw := beBytes 4 c.ssrc ++
    (c.values.map (fun v => v.1 % 256 :: v.2.length % 256 :: v.2)).flatten ++ [0]
  raw ++ List.replicate (pad_bytes_to_word raw.length - raw.length) 0

namespace RtcpFb

/-- The RTCP packet-type byte of each variant (§3: 8-bit enum). -/
def rtcp_type_code : RtcpFb → Nat
  | senderReport _ => 200
  | receiverReport _ => 201
  | sourceDescription _ => 202
  | goodbye _ => 203

/-- Modelled from the spec: the 4-byte header written by `write_to`
(`header.rs` not in the sources): version 2, padding bit clear, the 5-bit
report count, the packet type, and the 16-bit big-endian length-in-words
minus one. -/
def header_bytes (fb : RtcpFb) : List Nat :=
  let field := (fb.length_words - 1) % 65536
  [128 + fb.rcount % 32, fb.rtcp_type_code, field / 256, field % 256]

/-- Modelled from the spec: the body bytes following the header: the fixed
payload (sender statistics for a sender report, the one-word sender SSRC
for a receiver report) followed by the serialized reports. -/
def body_bytes : RtcpFb → List Nat
  | senderReport v => v.sender_info.to_bytes ++ (v.reports.map ReceptionReport.to_bytes).flatten
  | receiverReport v => beBytes 4 0 ++ (v.reports.map ReceptionReport.to_bytes).flatten
  | sourceDescription v => (v.reports.map Sdes.to_bytes).flatten
  | goodbye v => (v.reports.map (beBytes 4)).flatten

/-- Modelled from the spec: `write_to` serializes header then payload then
reports (§4.3); the bytes written into the output buffer. -/
def write_to (fb : RtcpFb) : List Nat := fb.header_bytes ++ fb.body_bytes

end RtcpFb

/-- The parsed RTCP header (`header.rs` not in the sources): the 5-bit
count/subtype, the packet-type byte, and the raw 16-bit length field. -/
structure RtcpHeader where
  count : Nat
  packet_type : Nat
  length_field : Nat
deriving DecidableEq

/-- `RtcpHeader::length_words`: "words minus one" semantics, so the actual
length in words is the field plus one. -/
def RtcpHeader.length_words (h : RtcpHeader) : Nat := h.length_field + 1

/-- Modelled from the spec: header parsing (`header.rs` not in the sources):
fails (`FrameError::Malformed`) if fewer than 4 bytes are available, the
version field is not 2, or the packet type is unrecognized (outside
200..=207). -/
def try_header : List Nat → Option RtcpHeader
  | b0 :: b1 :: b2 :: b3 :: _ =>
    if b0 / 64 ≠ 2 then none
    else if b1 < 200 ∨ 207 < b1 then none
    else some ⟨b0 % 32, b1, b2 * 256 + b3⟩
  | _ => none

/-- Parse one 24-byte reception report (offsets of the seven fields). -/
def parseReport (bs : List Nat) : ReceptionReport :=
  ⟨beVal (bs.take 4), beVal ((bs.drop 4).take 1), beVal ((bs.drop 5).take 3),
    beVal ((bs.drop 8).take 4), beVal ((bs.drop 12).take 4),
    beVal ((bs.drop 16).take 4), beVal ((bs.drop 20).take 4)⟩

/-- Parse `n` consecutive 24-byte reception reports, requiring the buffer to
be exhausted exactly. -/
def parseReports : Nat → List Nat → Option (List ReceptionReport)
  | 0, bs => if bs.isEmpty then some [] else none
  | n + 1, bs =>
    if bs.length < 24 then none
    else match parseReports n (bs.drop 24) with
      | none => none
      | some l => some (parseReport (bs.take 24) :: l)

/-- Modelled from the spec: decoding of a report-block list: the sub-packet
body is consumed until exhausted (per the comment in `TryFrom` in `mod.rs`);
a trailing fragment is a decode error. -/
def decode_reports (bs : List Nat) : Option (List ReceptionReport) :=
  if bs.length % 24 = 0 then parseReports (bs.length / 24) bs else none

/-- Modelled from the spec: `SenderReport` decoding (`sr.rs` not in the
sources): 24 bytes of sender statistics, then the reception reports. -/
def decode_sr (bs : List Nat) : Option SenderReport :=
  if bs.length < 24 then none
  else match decode_reports (bs.drop 24) with
    | none => none
    | some l => some ⟨⟨beVal (bs.take 4), beVal ((bs.drop 4).take 8),
        beVal ((bs.drop 12).take 4), beVal ((bs.drop 16).take 4),
        beVal ((bs.drop 20).take 4)⟩, l⟩

/-- Modelled from the spec: `ReceiverReport` decoding (`rr.rs` not in the
sources): the one-word sender SSRC (not stored), then the reports. -/
def decode_rr (bs : List Nat) : Option ReceiverReport :=
  if bs.length < 4 then none
  else match decode_reports (bs.drop 4) with
    | none => none
    | some l => some ⟨l⟩

/-- Modelled from the spec: parse source-description items up to the
terminating zero byte; returns the items and the bytes consumed (terminator
included).  `fuel` bounds the recursion (the byte count suffices). -/
def parseSdesItems : Nat → List Nat → Option (List (Nat × List Nat) × Nat)
  | 0, _ => none
  | _ + 1, [] => none
  | fuel + 1, t :: rest =>
    if t = 0 then some ([], 1)
    else match rest with
      | [] => none
      | lenB :: rest2 =>
        if rest2.length < lenB then none
        else match parseSdesItems fuel (rest2.drop lenB) with
          | none => none
          | some (items, consumed) => some ((t, rest2.take lenB) :: items, consumed + 2 + lenB)

/-- Modelled from the spec: parse consecutive source-description chunks until
the body is exhausted; each chunk is an SSRC, items to the terminator, then
zero padding up to a word boundary. -/
def parseChunks : Nat → List Nat → Option (List Sdes)
  | 0, bs => if bs.isEmpty then some [] else none
  | fuel + 1, bs =>
    if bs.isEmpty then some []
    else if bs.length < 4 then none
    else
      (parseSdesItems bs.length (bs.drop 4)).bind fun ic =>
        let padded := pad_bytes_to_word (4 + ic.2)
        if bs.length < padded then none
        else (parseChunks fuel (bs.drop padded)).map fun chunks =>
          ⟨beVal (bs.take 4), ic.1⟩ :: chunks

/-- Modelled from the spec: `Descriptions` decoding (`sdes.rs` not in the
sources). -/
def decode_sdes (bs : List Nat) : Option Descriptions :=
  (parseChunks bs.length bs).map Descriptions.mk

/-- Parse `n` four-byte SSRCs from the front of the body. -/
def parseSsrcs : Nat → List Nat → Option (List Nat)
  | 0, _ => some []
  | n + 1, bs =>
    if bs.length < 4 then none
    else match parseSsrcs n (bs.drop 4) with
      | none => none
      | some l => some (beVal (bs.take 4) :: l)

/-- Modelled from the spec: `Goodbye` decoding (`bb.rs` not in the sources):
reads `count` SSRCs (the count is passed from the header in `mod.rs`);
trailing bytes (an optional reason, out of scope) are ignored. -/
def decode_bye (count : Nat) (bs : List Nat) : Option Goodbye :=
  (parseSsrcs count bs).map Goodbye.mk

/-- `TryFrom<&[u8]> for RtcpFb` of `mod.rs`: parse the header, drop the four
header bytes ("subparsing can go until they exhaust the buffer length"), and
dispatch on the packet type.  `none` is `Err`: a decode failure or an
unsupported kind (ApplicationDefined, the feedback types, ExtendedReport). -/
def try_from (buf : List Nat) : Option RtcpFb :=
  match try_header buf with
  | none => none
  | some h =>
    let body := buf.drop 4
    if h.packet_type = 200 then (decode_sr body).map RtcpFb.senderReport
    else if h.packet_type = 201 then (decode_rr body).map RtcpFb.receiverReport
    else if h.packet_type = 202 then (decode_sdes body).map RtcpFb.sourceDescription
    else if h.packet_type = 203 then (decode_bye h.count body).map RtcpFb.goodbye
    else none

/-- The loop of `RtcpFb::read_packet` of `mod.rs`, with explicit fuel.
Returns the parsed packets together with the number of iterations that
advanced the scan.  A `none` result models fuel exhaustion or a panicking
out-of-bounds buffer access (both shown unreachable); every early `break` of
the source returns the packets accumulated so far, which here is the empty
continuation `some ([], 0)`. -/
def read_packet_go : Nat → List Nat → Option (List RtcpFb × Nat)
  | 0, _ => none
  | fuel + 1, buf =>
    if buf.isEmpty then some ([], 0)
    else match try_header buf with
      | none => some ([], 0)
      | some header =>
        let has_padding := 0 < buf.headD 0 &&& 32
        let full_length := header.length_words * 4
        if buf.length < full_length then some ([], 0)
        else match (if has_padding then buf.get? (full_length - 1) else some 0) with
          | none => none
          | some pad =>
            if has_padding ∧ full_length < pad then some ([], 0)
            else
              let unpadded_length := if has_padding then full_length - pad else full_length
              if buf.length < unpadded_length then none
              else
                let rest := buf.drop full_length
                match try_from (buf.take unpadded_length) with
                | some fb => (read_packet_go fuel rest).map (fun r => (fb :: r.1, r.2 + 1))
                | none => (read_packet_go fuel rest).map (fun r => (r.1, r.2 + 1))

/-- `RtcpFb::read_packet` of `mod.rs` (fuel instantiated; one fuel unit per
loop pass always suffices since each pass consumes at least 4 bytes). -/
def read_packet (buf : List Nat) : Option (List RtcpFb × Nat) :=
  read_packet_go (buf.length + 1) buf

/-- The packet sequence returned by `read_packet` (its panic-freedom is
proved separately). -/
def read_packet_list (buf : List Nat) : List RtcpFb :=
  ((read_packet buf).getD ([], 0)).1

/-- The drain loop of `RtcpFb::write_packet` of `mod.rs`: pop packets from
the front while the next one fits in `total_len`, writing each at `offset`
and remembering the previous offset.  Returns offset, previous offset, the
buffer, and the queue remainder; `none` models the `write_to` capacity
contract violation or the `assert_eq!(written, item_len)` failure (both
shown unreachable). -/
def write_loop :
    List RtcpFb → List Nat → Nat → Nat → Nat → Option (Nat × Nat × List Nat × List RtcpFb)
  | [], buf, _, offset, offset_prev => some (offset, offset_prev, buf, [])
  | fb :: rest, buf, total_len, offset, offset_prev =>
    let item_len := fb.length_words * 4
    if total_len - offset < item_len then some (offset, offset_prev, buf, fb :: rest)
    else
      let bytes := fb.write_to
      if buf.length < offset + item_len then none
      else if bytes.length ≠ item_len then none
      else write_loop rest (copyAt buf offset bytes) total_len (offset + item_len) offset

/-- The padding step of `RtcpFb::write_packet` of `mod.rs`: compute
`pad = pad_to - offset % pad_to`; when `offset > 0 && pad_to > 1 &&
pad < pad_to`, zero-fill `pad` bytes, set the final byte to `pad as u8`,
add `pad as u16 / 4` to the last written packet's 16-bit length field, and
set its padding bit. -/
def pad_phase (buf : List Nat) (offset offset_prev pad_to : Nat) : Option (Nat × List Nat) :=
  let pad := pad_to - offset % pad_to
  if 0 < offset ∧ 1 < pad_to ∧ pad < pad_to then
    if buf.length < offset + pad then none
    else
      let buf1 := copyAt buf offset (List.replicate pad 0)
      let offset1 := offset + pad
      let buf2 := buf1.set (offset1 - 1) (pad % 256)
      if buf2.length < offset_prev + 4 then none
      else
        let words_less_one :=
          (buf2.getD (offset_prev + 2) 0 * 256 + buf2.getD (offset_prev + 3) 0
            + pad % 65536 / 4) % 65536
        let buf3 := (buf2.set (offset_prev + 2) (words_less_one / 256)).set
          (offset_prev + 3) (words_less_one % 256)
        let buf4 := buf3.set offset_prev (buf3.getD offset_prev 0 ||| 32)
        some (offset1, buf4)
  else some (offset, buf)

/-- `RtcpFb::write_packet` of `mod.rs`: check the `pad_to` asserts, shrink
the byte budget to the `pad_to` boundary, pack, drain, pad.  Returns the
byte count written, the buffer, and the undrained queue remainder; `none`
models a panic (failed assert, or `pack` on an empty queue). -/
def write_packet (feedback : List RtcpFb) (buf : List Nat) (pad_to : Nat) :
    Option (Nat × List Nat × List RtcpFb) :=
  if pad_to = 0 then none
  else if pad_to % 4 ≠ 0 then none
  else
    let total_len := buf.length - buf.length % pad_to
    let word_capacity := total_len / 4
    match RtcpFb.pack feedback word_capacity with
    | none => none
    | some packed =>
      match write_loop packed buf total_len 0 0 with
      | none => none
      | some (offset, offset_prev, buf1, leftover) =>
        match pad_phase buf1 offset offset_prev pad_to with
        | none => none
        | some (offset2, buf2) => some (offset2, buf2, leftover)

/-- Well-formedness of a reception report: every field fits its wire width
(in the source these bounds are enforced by the Rust integer types). -/
def validReport (r : ReceptionReport) : Bool :=
  decide (r.ssrc < 2 ^ 32) && decide (r.fraction_lost < 2 ^ 8) &&
    decide (r.packets_lost < 2 ^ 24) && decide (r.max_seq < 2 ^ 32) &&
    decide (r.jitter < 2 ^ 32) && decide (r.last_sr_time < 2 ^ 32) &&
    decide (r.last_sr_delay < 2 ^ 32)

/-- Well-formedness of sender statistics (wire widths of the fields). -/
def validSenderInfo (si : SenderInfo) : Bool :=
  decide (si.ssrc < 2 ^ 32) && decide (si.ntp_time < 2 ^ 64) &&
    decide (si.rtp_time < 2 ^ 32) && decide (si.sender_packet_count < 2 ^ 32) &&
    decide (si.sender_octet_count < 2 ^ 32)

/-- Well-formedness of a source-description chunk: the SSRC fits a word,
every item has a nonzero type byte (zero terminates the item list), a text
that fits the one-byte length, byte-valued text contents, and the chunk
stays small (so that 31 chunks keep the 16-bit header length field from
overflowing). -/
def validSdes (c : Sdes) : Bool :=
  decide (c.ssrc < 2 ^ 32) &&
    c.values.all (fun v =>
      decide (1 ≤ v.1) && decide (v.1 < 256) && decide (v.2.length ≤ 255) &&
        v.2.all (fun b => decide (b < 256))) &&
    decide (c.raw_size ≤ 2048)

/-- Well-formedness of a queued packet: field widths, report list within the
31-item cap. -/
def validFb : RtcpFb → Bool
  | RtcpFb.senderReport v =>
    validSenderInfo v.sender_info && v.reports.all validReport &&
      decide (v.reports.length ≤ 31)
  | RtcpFb.receiverReport v =>
    v.reports.all validReport && decide (v.reports.length ≤ 31)
  | RtcpFb.sourceDescription v =>
    v.reports.all validSdes && decide (v.reports.length ≤ 31)
  | RtcpFb.goodbye v =>
    v.reports.all (fun s => decide (s < 2 ^ 32)) && decide (v.reports.length ≤ 31)

/-- The `report(ssrc)` helper of the unit tests of `mod.rs`. -/
def exReport (ssrc : Nat) : ReceptionReport := ⟨ssrc, 3, 1234, 4000, 5, 12, 1⟩

/-- The `rr(ssrc)` helper of the unit tests of `mod.rs`: a receiver report
holding the single report `exReport ssrc`. -/
def exRR (ssrc : Nat) : RtcpFb := RtcpFb.receiverReport ⟨[exReport ssrc]⟩

/-- The `sr(ssrc, now)` helper of the unit tests of `mod.rs`; its report list
holds `report(2)`.  The NTP timestamp is arbitrary in the test
(`MediaTime::now()`); 77 stands in for it. -/
def exSR (ssrc : Nat) : RtcpFb :=
  RtcpFb.senderReport ⟨⟨ssrc, 77, 4, 5, 6⟩, [exReport 2]⟩

/-- A one-SSRC goodbye packet (a concrete 8-byte roundtrip instance). -/
def exBye (ssrc : Nat) : RtcpFb := RtcpFb.goodbye ⟨[ssrc]⟩

/-- The empty receiver report (an `is_empty()` packet). -/
def exEmptyRR : RtcpFb := RtcpFb.receiverReport ⟨[]⟩

theorem getD_append_lt (xs ys : List Nat) (n d : Nat) (h : n < xs.length) :
    (xs ++ ys).getD n d = xs.getD n d := by
  simp [List.getD, List.getElem?_append, h]

theorem getD_append_ge (xs ys : List Nat) (n d : Nat) (h : xs.length ≤ n) :
    (xs ++ ys).getD n d = ys.getD (n - xs.length) d := by
  simp [List.getD, List.getElem?_append, Nat.not_lt.mpr h]

theorem drop_append_ge (xs ys : List Nat) (n : Nat) (h : xs.length ≤ n) :
    (xs ++ ys).drop n = ys.drop (n - xs.length) := by
  rw [List.drop_append_eq_append_drop, List.drop_eq_nil_of_le h, List.nil_append]

theorem take_append_ge (xs ys : List Nat) (n : Nat) (h : xs.length ≤ n) :
    (xs ++ ys).take n = xs ++ ys.take (n - xs.length) := by
  rw [List.take_append_eq_append_take, List.take_of_length_le h]

theorem replicate_set (k v : Nat) :
    (List.replicate (k + 1) 0).set k v = List.replicate k 0 ++ [v] := by
  induction k with
  | zero => rfl
  | succ m ih =>
    rw [List.replicate_succ, List.set_cons_succ, ih]
    rfl

theorem flatten_length_of (f : α → List Nat) (g : α → Nat) (L : List α)
    (h : ∀ a ∈ L, (f a).length = g a) :
    ((L.map f).flatten).length = (L.map g).sum := by
  induction L with
  | nil => rfl
  | cons x rest ih =>
    simp only [List.map_cons, List.flatten_cons, List.length_append, List.sum_cons,
      h x (by simp)]
    rw [ih (fun a ha => h a (by simp [ha]))]

@[simp] theorem SenderInfo.to_bytes_length_si (si : SenderInfo) : si.to_bytes.length = 24 := by
  simp [SenderInfo.to_bytes]

@[simp] theorem ReceptionReport.to_bytes_length_rr (r : ReceptionReport) :
    r.to_bytes.length = 24 := by
  simp [ReceptionReport.to_bytes]

theorem Sdes.raw_size_ge (c : Sdes) : 5 ≤ c.raw_size := by
  unfold Sdes.raw_size
  omega

/-- The bytes of the item list of a chunk. -/
def Sdes.items_bytes (c : Sdes) : List Nat :=
  (c.values.map (fun v => v.1 % 256 :: v.2.length % 256 :: v.2)).flatten

theorem Sdes.items_bytes_length (c : Sdes) :
    c.items_bytes.length = (c.values.map (fun v => 2 + v.2.length)).sum := by
  unfold Sdes.items_bytes
  exact flatten_length_of _ _ _ (fun a _ => by simp; omega)

theorem Sdes.to_bytes_eq (c : Sdes) :
    c.to_bytes = (beBytes 4 c.ssrc ++ c.items_bytes ++ [0]) ++
      List.replicate (pad_bytes_to_word c.raw_size - c.raw_size) 0 := by
  unfold Sdes.to_bytes Sdes.items_bytes
  have hlen : (beBytes 4 c.ssrc ++
      (c.values.map (fun (v : Nat × List Nat) => v.1 % 256 :: v.2.length % 256 :: v.2)).flatten ++
        [0]).length = c.raw_size := by
    simp only [List.length_append, beBytes_length, List.length_singleton]
    rw [flatten_length_of _ (fun (v : Nat × List Nat) => 2 + v.2.length) _
      (fun a _ => by simp; omega)]
    unfold Sdes.raw_size
    omega
  simp only [List.append_assoc] at hlen ⊢
  rw [hlen]

theorem Sdes.word_size_eq (c : Sdes) (h : c.raw_size + 3 < usizeMod) :
    c.word_size = (c.raw_size + 3) / 4 := by
  unfold Sdes.word_size
  rw [pad_bytes_to_word_eq _ h]
  omega

theorem Sdes.to_bytes_length (c : Sdes) (h : c.raw_size + 3 < usizeMod) :
    c.to_bytes.length = 4 * c.word_size := by
  rw [Sdes.to_bytes_eq, Sdes.word_size_eq c h]
  have hpad := pad_bytes_to_word_eq c.raw_size h
  have h5 := c.raw_size_ge
  simp only [List.length_append, beBytes_length, List.length_singleton,
    List.length_replicate, Sdes.items_bytes_length]
  unfold Sdes.raw_size at *
  omega

theorem validSdes_raw (c : Sdes) (h : validSdes c = true) : c.raw_size ≤ 2048 := by
  unfold validSdes at h
  simp only [Bool.and_eq_true, decide_eq_true_eq] at h
  exact h.2

theorem usizeMod_big : 1000000 < usizeMod := by
  unfold usizeMod
  norm_num

theorem Sdes.word_size_ge (c : Sdes) (h : c.raw_size + 3 < usizeMod) :
    2 ≤ c.word_size := by
  rw [Sdes.word_size_eq c h]
  have := c.raw_size_ge
  omega

theorem validSdes_word_le (c : Sdes) (h : validSdes c = true) : c.word_size ≤ 512 := by
  have hraw := validSdes_raw c h
  have hm := usizeMod_big
  rw [Sdes.word_size_eq c (by omega)]
  omega

theorem sum_le_of_forall (L : List Nat) (b : Nat) (h : ∀ x ∈ L, x ≤ b) :
    L.sum ≤ L.length * b := by
  induction L with
  | nil => simp
  | cons x rest ih =>
    simp only [List.sum_cons, List.length_cons]
    have h1 := h x (by simp)
    have h2 := ih (fun y hy => h y (by simp [hy]))
    have : (rest.length + 1) * b = rest.length * b + b := by ring
    omega

@[simp] theorem RtcpFb.header_bytes_length (fb : RtcpFb) : fb.header_bytes.length = 4 := rfl

theorem RtcpFb.length_words_pos (fb : RtcpFb) : 1 ≤ fb.length_words := by
  cases fb <;> simp [RtcpFb.length_words] <;> omega

theorem RtcpFb.body_bytes_length (fb : RtcpFb) (h : validFb fb = true) :
    fb.body_bytes.length = 4 * (fb.length_words - 1) := by
  cases fb with
  | senderReport v =>
    simp only [RtcpFb.body_bytes, RtcpFb.length_words, List.length_append,
      SenderInfo.to_bytes_length_si]
    rw [flatten_length_of _ (fun _ => 24) _ (fun a _ => by simp)]
    simp [List.map_const]
    omega
  | receiverReport v =>
    simp only [RtcpFb.body_bytes, RtcpFb.length_words, List.length_append, beBytes_length]
    rw [flatten_length_of _ (fun _ => 24) _ (fun a _ => by simp)]
    simp [List.map_const]
    omega
  | sourceDescription v =>
    simp only [RtcpFb.body_bytes, RtcpFb.length_words]
    unfold validFb at h
    simp only [Bool.and_eq_true, List.all_eq_true, decide_eq_true_eq] at h
    have hm := usizeMod_big
    rw [flatten_length_of _ (fun c => 4 * c.word_size) _
      (fun c hc => Sdes.to_bytes_length c (by
        have := validSdes_raw c (h.1 c hc)
        omega))]
    have : (v.reports.map (fun c => 4 * c.word_size)).sum =
        4 * (v.reports.map Sdes.word_size).sum := by
      induction v.reports with
      | nil => simp
      | cons x rest ih =>
        simp only [List.map_cons, List.sum_cons, ih]
        ring
    rw [this]
    omega
  | goodbye v =>
    simp only [RtcpFb.body_bytes, RtcpFb.length_words]
    rw [flatten_length_of _ (fun _ => 4) _ (fun a _ => by simp)]
    simp [List.map_const]
    omega

theorem RtcpFb.write_to_length (fb : RtcpFb) (h : validFb fb = true) :
    fb.write_to.length = 4 * fb.length_words := by
  have h1 := fb.body_bytes_length h
  have h2 := fb.length_words_pos
  simp only [RtcpFb.write_to, List.length_append, RtcpFb.header_bytes_length, h1]
  omega

theorem RtcpFb.rcount_le (fb : RtcpFb) (h : validFb fb = true) : fb.rcount ≤ 31 := by
  cases fb <;>
    (unfold validFb at h
     simp only [Bool.and_eq_true, decide_eq_true_eq] at h
     simp [RtcpFb.rcount]
     omega)

theorem RtcpFb.length_words_le (fb : RtcpFb) (h : validFb fb = true) :
    fb.length_words ≤ 15873 := by
  cases fb with
  | senderReport v =>
    unfold validFb at h
    simp only [Bool.and_eq_true, decide_eq_true_eq] at h
    simp only [RtcpFb.length_words]
    omega
  | receiverReport v =>
    unfold validFb at h
    simp only [Bool.and_eq_true, decide_eq_true_eq] at h
    simp only [RtcpFb.length_words]
    omega
  | sourceDescription v =>
    unfold validFb at h
    simp only [Bool.and_eq_true, List.all_eq_true, decide_eq_true_eq] at h
    simp only [RtcpFb.length_words]
    have hsum : (v.reports.map Sdes.word_size).sum ≤ (v.reports.map Sdes.word_size).length * 512 :=
      sum_le_of_forall _ _ (by
        intro x hx
        simp only [List.mem_map] at hx
        obtain ⟨c, hc, rfl⟩ := hx
        exact validSdes_word_le c (h.1 c hc))
    simp only [List.length_map] at hsum
    have := h.2
    nlinarith
  | goodbye v =>
    unfold validFb at h
    simp only [Bool.and_eq_true, decide_eq_true_eq] at h
    simp only [RtcpFb.length_words]
    omega

theorem parseReport_round (r : ReceptionReport) (h : validReport r = true) :
    parseReport r.to_bytes = r := by
  obtain ⟨s, f, p, m, j, t, d⟩ := r
  unfold validReport at h
  simp only [Bool.and_eq_true, decide_eq_true_eq] at h
  unfold ReceptionReport.to_bytes parseReport
  simp only [beBytes, List.nil_append, List.cons_append, List.append_nil]
  simp only [List.take, List.drop]
  simp only [beVal, List.foldl, ReceptionReport.mk.injEq]
  refine ⟨?_, ?_, ?_, ?_, ?_, ?_, ?_⟩ <;> omega

theorem parseReports_round (rs : List ReceptionReport) (h : rs.all validReport = true) :
    parseReports rs.length ((rs.map ReceptionReport.to_bytes).flatten) = some rs := by
  induction rs with
  | nil => rfl
  | cons r rest ih =>
    simp only [List.all_cons, Bool.and_eq_true] at h
    simp only [List.map_cons, List.flatten_cons, List.length_cons]
    unfold parseReports
    rw [if_neg (by simp)]
    rw [List.drop_left' r.to_bytes_length_rr, ih h.2,
      List.take_left' r.to_bytes_length_rr, parseReport_round r h.1]

theorem reports_flatten_length (rs : List ReceptionReport) :
    ((rs.map ReceptionReport.to_bytes).flatten).length = 24 * rs.length := by
  rw [flatten_length_of _ (fun _ => 24) _ (fun a _ => by simp)]
  simp [List.map_const]
  ring

theorem decode_reports_round (rs : List ReceptionReport) (h : rs.all validReport = true) :
    decode_reports ((rs.map ReceptionReport.to_bytes).flatten) = some rs := by
  unfold decode_reports
  rw [reports_flatten_length]
  rw [if_pos (by omega)]
  have : 24 * rs.length / 24 = rs.length := by omega
  rw [this, parseReports_round rs h]

theorem decode_sr_round (v : SenderReport) (hsi : validSenderInfo v.sender_info = true)
    (hr : v.reports.all validReport = true) :
    decode_sr (RtcpFb.senderReport v).body_bytes = some v := by
  obtain ⟨⟨s, ntp, rtp, pc, oc⟩, reports⟩ := v
  unfold validSenderInfo at hsi
  simp only [Bool.and_eq_true, decide_eq_true_eq] at hsi
  unfold RtcpFb.body_bytes decode_sr SenderInfo.to_bytes
  simp only [beBytes, List.nil_append, List.cons_append, List.append_nil]
  rw [if_neg (by simp)]
  simp only [List.drop]
  rw [decode_reports_round reports hr]
  simp only [List.take, List.drop]
  simp only [beVal, List.foldl, Option.some.injEq, SenderReport.mk.injEq,
    SenderInfo.mk.injEq]
  refine ⟨⟨?_, ?_, ?_, ?_, ?_⟩, trivial⟩ <;> omega

theorem decode_rr_round (v : ReceiverReport) (hr : v.reports.all validReport = true) :
    decode_rr (RtcpFb.receiverReport v).body_bytes = some v := by
  unfold RtcpFb.body_bytes decode_rr
  simp only [beBytes, List.nil_append, List.cons_append, List.append_nil]
  rw [if_neg (by simp)]
  simp only [List.drop]
  rw [decode_reports_round v.reports hr]

theorem parseSsrcs_round (ss : List Nat) (h : ss.all (fun s => decide (s < 2 ^ 32)) = true) :
    parseSsrcs ss.length ((ss.map (beBytes 4)).flatten) = some ss := by
  induction ss with
  | nil => rfl
  | cons s rest ih =>
    simp only [List.all_cons, Bool.and_eq_true, decide_eq_true_eq] at h
    simp only [List.map_cons, List.flatten_cons, List.length_cons]
    unfold parseSsrcs
    rw [if_neg (by simp)]
    rw [List.drop_left' (beBytes_length 4 s), ih h.2,
      List.take_left' (beBytes_length 4 s), beVal_beBytes 4 s (by norm_num; omega)]

theorem decode_bye_round (v : Goodbye)
    (h : v.reports.all (fun s => decide (s < 2 ^ 32)) = true) :
    decode_bye v.reports.length (RtcpFb.goodbye v).body_bytes = some v := by
  unfold RtcpFb.body_bytes decode_bye
  rw [parseSsrcs_round v.reports h]
  rfl

/-- Byte length of a source-description item list. -/
def sdesItemsLen (vs : List (Nat × List Nat)) : Nat :=
  (vs.map (fun v => 2 + v.2.length)).sum

/-- Well-formedness of source-description items alone. -/
def validSdesItems (vs : List (Nat × List Nat)) : Bool :=
  vs.all (fun v =>
    decide (1 ≤ v.1) && decide (v.1 < 256) && decide (v.2.length ≤ 255) &&
      v.2.all (fun b => decide (b < 256)))

/-- The serialized item bytes of a chunk, as a standalone function. -/
def sdesItemsBytes (vs : List (Nat × List Nat)) : List Nat :=
  (vs.map (fun v => v.1 % 256 :: v.2.length % 256 :: v.2)).flatten

theorem sdesItemsBytes_length (vs : List (Nat × List Nat)) :
    (sdesItemsBytes vs).length = sdesItemsLen vs := by
  unfold sdesItemsBytes sdesItemsLen
  exact flatten_length_of _ _ _ (fun a _ => by simp; omega)

theorem Sdes.items_bytes_def (c : Sdes) : c.items_bytes = sdesItemsBytes c.values := rfl

theorem parseSdesItems_round (vs : List (Nat × List Nat)) (suffix : List Nat) (fuel : Nat)
    (hv : validSdesItems vs = true) (hfuel : sdesItemsLen vs + 1 ≤ fuel) :
    parseSdesItems fuel (sdesItemsBytes vs ++ 0 :: suffix) =
      some (vs, sdesItemsLen vs + 1) := by
  induction vs generalizing fuel suffix with
  | nil =>
    obtain ⟨f, rfl⟩ : ∃ f, fuel = f + 1 := ⟨fuel - 1, by unfold sdesItemsLen at hfuel; omega⟩
    simp [sdesItemsBytes, sdesItemsLen, parseSdesItems]
  | cons v rest ih =>
    obtain ⟨t, txt⟩ := v
    unfold validSdesItems at hv
    simp only [List.all_cons, Bool.and_eq_true, decide_eq_true_eq] at hv
    obtain ⟨⟨⟨⟨ht1, ht2⟩, htxt⟩, _⟩, hrest⟩ := hv
    have hlen : sdesItemsLen ((t, txt) :: rest) = 2 + txt.length + sdesItemsLen rest := by
      unfold sdesItemsLen
      simp only [List.map_cons, List.sum_cons]
    rw [hlen] at hfuel ⊢
    obtain ⟨f, rfl⟩ : ∃ f, fuel = f + 1 := ⟨fuel - 1, by omega⟩
    have htm : t % 256 = t := Nat.mod_eq_of_lt ht2
    have hlm : txt.length % 256 = txt.length := Nat.mod_eq_of_lt (by omega)
    have hexp : sdesItemsBytes ((t, txt) :: rest) ++ 0 :: suffix =
        t :: txt.length :: (txt ++ (sdesItemsBytes rest ++ 0 :: suffix)) := by
      show ((t % 256 :: txt.length % 256 :: txt) ++ sdesItemsBytes rest) ++ 0 :: suffix = _
      rw [htm, hlm]
      simp [List.append_assoc]
    rw [hexp]
    simp only [parseSdesItems]
    rw [if_neg (by omega)]
    rw [if_neg (by simp only [List.length_append, List.length_cons]; omega)]
    rw [List.drop_left' rfl, List.take_left' rfl, ih suffix f hrest (by omega)]
    simp only [Option.some.injEq, Prod.mk.injEq, true_and]
    omega

theorem validSdes_items (c : Sdes) (h : validSdes c = true) :
    validSdesItems c.values = true := by
  unfold validSdes at h
  unfold validSdesItems
  simp only [Bool.and_eq_true] at h
  exact h.1.2

theorem Sdes.raw_size_eq (c : Sdes) : c.raw_size = 4 + sdesItemsLen c.values + 1 := rfl

theorem parseChunks_round (L : List Sdes) (fuel : Nat)
    (hv : L.all validSdes = true) (hfuel : L.length ≤ fuel) :
    parseChunks fuel ((L.map Sdes.to_bytes).flatten) = some L := by
  induction L generalizing fuel with
  | nil =>
    cases fuel <;> simp [parseChunks]
  | cons c rest ih =>
    simp only [List.all_cons, Bool.and_eq_true] at hv
    obtain ⟨hc, hrest⟩ := hv
    have hm := usizeMod_big
    have hraw := validSdes_raw c hc
    have hcl : c.to_bytes.length = 4 * c.word_size := c.to_bytes_length (by omega)
    have hws := c.word_size_ge (by omega)
    have hrawpad : pad_bytes_to_word c.raw_size = 4 * c.word_size := by
      rw [pad_bytes_to_word_eq _ (by omega), Sdes.word_size_eq c (by omega)]
    obtain ⟨f, rfl⟩ : ∃ f, fuel = f + 1 := ⟨fuel - 1, by simp at hfuel; omega⟩
    simp only [List.map_cons, List.flatten_cons]
    have hlenbs : (c.to_bytes ++ (rest.map Sdes.to_bytes).flatten).length =
        4 * c.word_size + ((rest.map Sdes.to_bytes).flatten).length := by
      simp [hcl]
    unfold parseChunks
    rw [if_neg (by
      simp only [List.isEmpty_eq_true, List.append_eq_nil]
      rintro ⟨h1, -⟩
      rw [h1] at hcl
      simp at hcl
      omega)]
    rw [if_neg (by rw [hlenbs]; omega)]
    have hbs : c.to_bytes ++ (rest.map Sdes.to_bytes).flatten =
        beBytes 4 c.ssrc ++ (sdesItemsBytes c.values ++ 0 ::
          (List.replicate (pad_bytes_to_word c.raw_size - c.raw_size) 0 ++
            (rest.map Sdes.to_bytes).flatten)) := by
      rw [Sdes.to_bytes_eq, Sdes.items_bytes_def]
      simp [List.append_assoc]
    have hdrop4 : (c.to_bytes ++ (rest.map Sdes.to_bytes).flatten).drop 4 =
        sdesItemsBytes c.values ++ 0 ::
          (List.replicate (pad_bytes_to_word c.raw_size - c.raw_size) 0 ++
            (rest.map Sdes.to_bytes).flatten) := by
      rw [hbs, List.drop_left' (beBytes_length 4 c.ssrc)]
    rw [hdrop4]
    rw [parseSdesItems_round c.values _ _ (validSdes_items c hc) (by
      have h4ws : c.raw_size ≤ 4 * c.word_size := by
        rw [← hrawpad, pad_bytes_to_word_eq _ (by omega)]
        omega
      have hre := c.raw_size_eq
      rw [hlenbs]
      omega)]
    rw [Option.some_bind]
    have hcons : 4 + (sdesItemsLen c.values + 1) = c.raw_size := by
      rw [Sdes.raw_size_eq]
      omega
    rw [hcons, hrawpad]
    rw [if_neg (by rw [hlenbs]; omega)]
    have hdropws : (c.to_bytes ++ (rest.map Sdes.to_bytes).flatten).drop (4 * c.word_size) =
        (rest.map Sdes.to_bytes).flatten := by
      rw [drop_append_ge _ _ _ (by rw [hcl]), hcl]
      simp
    rw [hdropws, ih f hrest (by simp at hfuel; omega)]
    have htake4 : (c.to_bytes ++ (rest.map Sdes.to_bytes).flatten).take 4 = beBytes 4 c.ssrc := by
      rw [hbs, List.take_left' (beBytes_length 4 c.ssrc)]
    rw [htake4]
    unfold validSdes at hc
    simp only [Bool.and_eq_true, decide_eq_true_eq] at hc
    rw [beVal_beBytes 4 c.ssrc (by norm_num; exact hc.1.1)]
    rfl

theorem sdes_flatten_length_ge (L : List Sdes) (hv : L.all validSdes = true) :
    L.length ≤ ((L.map Sdes.to_bytes).flatten).length := by
  have hm := usizeMod_big
  rw [flatten_length_of _ (fun c => 4 * c.word_size) _ (fun c hc => by
    simp only [List.all_eq_true] at hv
    exact c.to_bytes_length (by have := validSdes_raw c (hv c hc); omega))]
  induction L with
  | nil => simp
  | cons c rest ih =>
    simp only [List.all_cons, Bool.and_eq_true] at hv
    have := c.word_size_ge (by have := validSdes_raw c hv.1; omega)
    have h2 := ih hv.2
    simp only [List.map_cons, List.sum_cons, List.length_cons]
    omega

theorem decode_sdes_round (v : Descriptions) (hv : v.reports.all validSdes = true) :
    decode_sdes (RtcpFb.sourceDescription v).body_bytes = some v := by
  unfold RtcpFb.body_bytes decode_sdes
  rw [parseChunks_round v.reports _ hv (sdes_flatten_length_ge v.reports hv)]
  rfl

theorem rtcp_type_code_range (fb : RtcpFb) :
    200 ≤ fb.rtcp_type_code ∧ fb.rtcp_type_code ≤ 207 := by
  cases fb <;> simp [RtcpFb.rtcp_type_code]

theorem try_header_write (fb : RtcpFb) (suffix : List Nat) (h : validFb fb = true) :
    try_header (fb.write_to ++ suffix) =
      some ⟨fb.rcount, fb.rtcp_type_code, fb.length_words - 1⟩ := by
  have hc := fb.rcount_le h
  have hl := fb.length_words_le h
  have hcode := rtcp_type_code_range fb
  have hcm : fb.rcount % 32 = fb.rcount := Nat.mod_eq_of_lt (by omega)
  have hf : (fb.length_words - 1) % 65536 = fb.length_words - 1 := Nat.mod_eq_of_lt (by omega)
  show try_header ((fb.header_bytes ++ fb.body_bytes) ++ suffix) = _
  unfold RtcpFb.header_bytes
  simp only [List.cons_append, List.nil_append]
  simp only [try_header]
  rw [if_neg (by omega), if_neg (by omega)]
  simp only [Option.some.injEq, RtcpHeader.mk.injEq]
  refine ⟨by omega, trivial, by rw [hf]; omega⟩

theorem write_to_drop4 (fb : RtcpFb) : fb.write_to.drop 4 = fb.body_bytes := by
  show (fb.header_bytes ++ fb.body_bytes).drop 4 = _
  rw [List.drop_left' fb.header_bytes_length]

theorem try_from_round (fb : RtcpFb) (h : validFb fb = true) :
    try_from fb.write_to = some fb := by
  unfold try_from
  have hth := try_header_write fb [] h
  rw [List.append_nil] at hth
  rw [hth]
  cases fb with
  | senderReport v =>
    unfold validFb at h
    simp only [Bool.and_eq_true] at h
    simp only [RtcpFb.rtcp_type_code, eq_self_iff_true, if_true]
    rw [write_to_drop4, decode_sr_round v h.1.1 h.1.2]
    rfl
  | receiverReport v =>
    unfold validFb at h
    simp only [Bool.and_eq_true] at h
    simp only [RtcpFb.rtcp_type_code]
    rw [if_neg (by omega)]
    simp only [eq_self_iff_true, if_true]
    rw [write_to_drop4, decode_rr_round v h.1]
    rfl
  | sourceDescription v =>
    unfold validFb at h
    simp only [Bool.and_eq_true] at h
    simp only [RtcpFb.rtcp_type_code]
    rw [if_neg (by omega), if_neg (by omega)]
    simp only [eq_self_iff_true, if_true]
    rw [write_to_drop4, decode_sdes_round v h.1]
    rfl
  | goodbye v =>
    unfold validFb at h
    simp only [Bool.and_eq_true] at h
    simp only [RtcpFb.rtcp_type_code, RtcpFb.rcount]
    rw [if_neg (by omega), if_neg (by omega), if_neg (by omega)]
    simp only [eq_self_iff_true, if_true]
    rw [write_to_drop4, decode_bye_round v h.1]
    rfl

theorem read_packet_go_total (fuel : Nat) :
    ∀ buf : List Nat, buf.length < fuel →
      ∃ r, read_packet_go fuel buf = some r ∧ r.2 ≤ buf.length / 4 := by
  induction fuel with
  | zero =>
    intro buf h
    omega
  | succ f ih =>
    intro buf hlen
    unfold read_packet_go
    by_cases hemp : buf.isEmpty
    · rw [if_pos hemp]
      exact ⟨([], 0), rfl, by omega⟩
    · rw [if_neg hemp]
      cases heq : try_header buf with
      | none => exact ⟨([], 0), rfl, by omega⟩
      | some header =>
        dsimp only
        have hlw : 1 ≤ header.length_words := by
          unfold RtcpHeader.length_words
          omega
        by_cases hfull : buf.length < header.length_words * 4
        · rw [if_pos hfull]
          exact ⟨([], 0), rfl, by omega⟩
        · rw [if_neg hfull]
          have hfle : header.length_words * 4 ≤ buf.length := by omega
          have hnemp : buf.length ≠ 0 := by
            cases buf with
            | nil => simp at hemp
            | cons a l => simp
          by_cases hpadb : 0 < buf.headD 0 &&& 32
          · rw [if_pos hpadb]
            have hidx : header.length_words * 4 - 1 < buf.length := by omega
            obtain ⟨pd, hpd⟩ : ∃ p, buf.get? (header.length_words * 4 - 1) = some p := by
              rw [List.get?_eq_getElem?]
              exact ⟨buf[header.length_words * 4 - 1], List.getElem?_eq_getElem hidx⟩
            rw [hpd]
            dsimp only
            by_cases hpbig : header.length_words * 4 < pd
            · rw [if_pos ⟨hpadb, hpbig⟩]
              exact ⟨([], 0), rfl, by omega⟩
            · rw [if_neg (by
                intro hcon
                exact hpbig hcon.2)]
              rw [if_pos hpadb]
              rw [if_neg (by omega)]
              obtain ⟨r, hr, hb⟩ := ih (buf.drop (header.length_words * 4)) (by
                rw [List.length_drop]
                omega)
              cases hdec : try_from (buf.take (header.length_words * 4 - pd)) with
              | some fb =>
                refine ⟨(fb :: r.1, r.2 + 1), ?_, ?_⟩
                · rw [hr]
                  rfl
                · rw [List.length_drop] at hb
                  omega
              | none =>
                refine ⟨(r.1, r.2 + 1), ?_, ?_⟩
                · rw [hr]
                  rfl
                · rw [List.length_drop] at hb
                  omega
          · rw [if_neg hpadb]
            dsimp only
            rw [if_neg (by
              intro hcon
              exact hpadb hcon.1)]
            rw [if_neg hpadb]
            rw [if_neg (by omega)]
            obtain ⟨r, hr, hb⟩ := ih (buf.drop (header.length_words * 4)) (by
              rw [List.length_drop]
              omega)
            cases hdec : try_from (buf.take (header.length_words * 4)) with
            | some fb =>
              refine ⟨(fb :: r.1, r.2 + 1), ?_, ?_⟩
              · rw [hr]
                rfl
              · rw [List.length_drop] at hb
                omega
            | none =>
              refine ⟨(r.1, r.2 + 1), ?_, ?_⟩
              · rw [hr]
                rfl
              · rw [List.length_drop] at hb
                omega

theorem band32 : ∀ c, c < 32 → (128 + c) &&& 32 = 0 := by decide
theorem bor32 : ∀ c, c < 32 → (128 + c) ||| 32 = 160 + c := by decide
theorem band32h : ∀ c, c < 32 → (160 + c) &&& 32 = 32 := by decide
theorem mod32h : ∀ c, c < 32 → (160 + c) % 32 = c := by decide
theorem div64h : ∀ c, c < 32 → (160 + c) / 64 = 2 := by decide

theorem write_to_cons (fb : RtcpFb) : fb.write_to =
    (128 + fb.rcount % 32) :: fb.rtcp_type_code ::
      ((fb.length_words - 1) % 65536 / 256) ::
      ((fb.length_words - 1) % 65536 % 256) :: fb.body_bytes := rfl

/-- The effect of the retroactive header patch of `write_packet` on the last
written packet's serialized bytes: set the padding bit on byte 0 and add `k`
to the 16-bit big-endian length field in bytes 2 and 3. -/
def patch_header (bs : List Nat) (k : Nat) : List Nat :=
  match bs with
  | b0 :: b1 :: b2 :: b3 :: t =>
    (b0 ||| 32) :: b1 :: ((b2 * 256 + b3 + k) % 65536 / 256) ::
      ((b2 * 256 + b3 + k) % 65536 % 256) :: t
  | _ => bs

/-- The final sub-packet of a padded compound packet: the patched header
followed by the body, `pad - 1` zero bytes, and the final pad-count byte. -/
def patch_pad (bs : List Nat) (pad : Nat) : List Nat :=
  patch_header bs (pad % 65536 / 4) ++ (List.replicate (pad - 1) 0 ++ [pad % 256])

theorem patch_header_write (fb : RtcpFb) (k : Nat) (h : validFb fb = true) :
    patch_header fb.write_to k =
      (160 + fb.rcount) :: fb.rtcp_type_code ::
        ((fb.length_words - 1 + k) % 65536 / 256) ::
        ((fb.length_words - 1 + k) % 65536 % 256) :: fb.body_bytes := by
  have hc := fb.rcount_le h
  have hl := fb.length_words_le h
  have hcm : fb.rcount % 32 = fb.rcount := Nat.mod_eq_of_lt (by omega)
  have hf : (fb.length_words - 1) % 65536 = fb.length_words - 1 := Nat.mod_eq_of_lt (by omega)
  rw [write_to_cons, hcm, hf]
  show (128 + fb.rcount ||| 32) :: _ :: _ :: _ :: _ = _
  rw [bor32 _ (by omega)]
  have hfe : (fb.length_words - 1) / 256 * 256 + (fb.length_words - 1) % 256 =
      fb.length_words - 1 := by omega
  rw [show (fb.length_words - 1) / 256 * 256 + (fb.length_words - 1) % 256 + k =
    fb.length_words - 1 + k from by omega]

theorem patch_header_length (bs : List Nat) (k : Nat) :
    (patch_header bs k).length = bs.length := by
  unfold patch_header
  match bs with
  | [] => rfl
  | [a] => rfl
  | [a, b] => rfl
  | [a, b, c] => rfl
  | a :: b :: c :: d :: t => simp

theorem try_from_patched (fb : RtcpFb) (k : Nat) (h : validFb fb = true)
    (hk : fb.length_words - 1 + k < 65536) :
    try_from (patch_header fb.write_to k) = some fb := by
  have hc := fb.rcount_le h
  have hcode := rtcp_type_code_range fb
  rw [patch_header_write fb k h]
  have hkm : (fb.length_words - 1 + k) % 65536 = fb.length_words - 1 + k :=
    Nat.mod_eq_of_lt hk
  unfold try_from
  have hth : try_header ((160 + fb.rcount) :: fb.rtcp_type_code ::
      ((fb.length_words - 1 + k) % 65536 / 256) ::
      ((fb.length_words - 1 + k) % 65536 % 256) :: fb.body_bytes) =
      some ⟨fb.rcount, fb.rtcp_type_code, fb.length_words - 1 + k⟩ := by
    simp only [try_header]
    rw [if_neg (by
      rw [div64h _ (by omega)]
      omega)]
    rw [if_neg (by omega)]
    simp only [Option.some.injEq, RtcpHeader.mk.injEq]
    refine ⟨by rw [mod32h _ (by omega)], trivial, by rw [hkm]; omega⟩
  rw [hth]
  have hdrop : ((160 + fb.rcount) :: fb.rtcp_type_code ::
      ((fb.length_words - 1 + k) % 65536 / 256) ::
      ((fb.length_words - 1 + k) % 65536 % 256) :: fb.body_bytes).drop 4 =
      fb.body_bytes := rfl
  rw [hdrop]
  cases fb with
  | senderReport v =>
    unfold validFb at h
    simp only [Bool.and_eq_true] at h
    simp only [RtcpFb.rtcp_type_code, eq_self_iff_true, if_true]
    rw [decode_sr_round v h.1.1 h.1.2]
    rfl
  | receiverReport v =>
    unfold validFb at h
    simp only [Bool.and_eq_true] at h
    simp only [RtcpFb.rtcp_type_code]
    rw [if_neg (by omega)]
    simp only [eq_self_iff_true, if_true]
    rw [decode_rr_round v h.1]
    rfl
  | sourceDescription v =>
    unfold validFb at h
    simp only [Bool.and_eq_true] at h
    simp only [RtcpFb.rtcp_type_code]
    rw [if_neg (by omega), if_neg (by omega)]
    simp only [eq_self_iff_true, if_true]
    rw [decode_sdes_round v h.1]
    rfl
  | goodbye v =>
    unfold validFb at h
    simp only [Bool.and_eq_true] at h
    simp only [RtcpFb.rtcp_type_code, RtcpFb.rcount]
    rw [if_neg (by omega), if_neg (by omega), if_neg (by omega)]
    simp only [eq_self_iff_true, if_true]
    rw [decode_bye_round v h.1]
    rfl

theorem headD_write (fb : RtcpFb) (X : List Nat) :
    (fb.write_to ++ X).headD 0 = 128 + fb.rcount % 32 := by
  rw [write_to_cons]
  rfl

theorem read_packet_go_step (fb : RtcpFb) (X : List Nat) (f : Nat)
    (hfb : validFb fb = true) :
    read_packet_go (f + 1) (fb.write_to ++ X) =
      (read_packet_go f X).map (fun r => (fb :: r.1, r.2 + 1)) := by
  have hwlen := fb.write_to_length hfb
  have hlw := fb.length_words_pos
  have hc := fb.rcount_le hfb
  conv_lhs => unfold read_packet_go
  rw [if_neg (by
    simp only [List.isEmpty_eq_true, List.append_eq_nil]
    rintro ⟨h1, -⟩
    rw [h1] at hwlen
    simp at hwlen
    omega)]
  rw [try_header_write fb _ hfb]
  dsimp only [RtcpHeader.length_words]
  rw [headD_write fb _]
  rw [band32 _ (Nat.mod_lt _ (by omega))]
  rw [show fb.length_words - 1 + 1 = fb.length_words from by omega]
  have hblen : (fb.write_to ++ X).length = 4 * fb.length_words + X.length := by
    simp [hwlen]
  rw [if_neg (by rw [hblen]; omega)]
  simp only [lt_self_iff_false, false_and, if_false]
  rw [if_neg (by rw [hblen]; omega)]
  have htake : (fb.write_to ++ X).take (fb.length_words * 4) = fb.write_to :=
    List.take_left' (by omega)
  have hdrop : (fb.write_to ++ X).drop (fb.length_words * 4) = X :=
    List.drop_left' (by omega)
  rw [htake, hdrop, try_from_round fb hfb]

theorem read_packet_go_concat (L : List RtcpFb) (fuel : Nat)
    (hv : L.all validFb = true) (hfuel : L.length < fuel) :
    read_packet_go fuel ((L.map RtcpFb.write_to).flatten) = some (L, L.length) := by
  induction L generalizing fuel with
  | nil =>
    obtain ⟨f, rfl⟩ : ∃ f, fuel = f + 1 := ⟨fuel - 1, by omega⟩
    simp [read_packet_go]
  | cons fb rest ih =>
    simp only [List.all_cons, Bool.and_eq_true] at hv
    obtain ⟨hfb, hrest⟩ := hv
    obtain ⟨f, rfl⟩ : ∃ f, fuel = f + 1 := ⟨fuel - 1, by simp at hfuel; omega⟩
    simp only [List.map_cons, List.flatten_cons]
    rw [read_packet_go_step fb _ f hfb, ih f hrest (by simp at hfuel ⊢; omega)]
    simp

theorem try_header_patched (fb : RtcpFb) (k : Nat) (suffix : List Nat)
    (h : validFb fb = true) (hk : fb.length_words - 1 + k < 65536) :
    try_header (patch_header fb.write_to k ++ suffix) =
      some ⟨fb.rcount, fb.rtcp_type_code, fb.length_words - 1 + k⟩ := by
  have hc := fb.rcount_le h
  have hcode := rtcp_type_code_range fb
  have hkm : (fb.length_words - 1 + k) % 65536 = fb.length_words - 1 + k :=
    Nat.mod_eq_of_lt hk
  rw [patch_header_write fb k h]
  simp only [List.cons_append]
  simp only [try_header]
  rw [if_neg (by
    rw [div64h _ (by omega)]
    omega)]
  rw [if_neg (by omega)]
  simp only [Option.some.injEq, RtcpHeader.mk.injEq]
  refine ⟨by rw [mod32h _ (by omega)], trivial, by rw [hkm]; omega⟩

theorem read_packet_go_padded (L : List RtcpFb) (last : RtcpFb) (pad fuel : Nat)
    (hv : L.all validFb = true) (hlast : validFb last = true)
    (hp4 : 4 ≤ pad) (hp255 : pad ≤ 255) (hpm : pad % 4 = 0)
    (hfuel : L.length + 1 < fuel) :
    read_packet_go fuel ((L.map RtcpFb.write_to).flatten ++ patch_pad last.write_to pad) =
      some (L ++ [last], L.length + 1) := by
  induction L generalizing fuel with
  | cons fb rest ih =>
    simp only [List.all_cons, Bool.and_eq_true] at hv
    obtain ⟨hfb, hrest⟩ := hv
    obtain ⟨f, rfl⟩ : ∃ f, fuel = f + 1 := ⟨fuel - 1, by simp at hfuel; omega⟩
    simp only [List.map_cons, List.flatten_cons, List.append_assoc]
    rw [read_packet_go_step fb _ f hfb, ih f hrest (by simp at hfuel ⊢; omega)]
    simp
  | nil =>
    obtain ⟨f, rfl⟩ : ∃ f, fuel = f + 1 := ⟨fuel - 1, by omega⟩
    have hf1 : 1 ≤ f := by simp at hfuel; omega
    simp only [List.map_nil, List.flatten_nil, List.nil_append, List.length_nil,
      List.length_cons]
    have hwlen := last.write_to_length hlast
    have hlw := last.length_words_pos
    have hc := last.rcount_le hlast
    have hl := last.length_words_le hlast
    have hpm65 : pad % 65536 = pad := Nat.mod_eq_of_lt (by omega)
    have hk : last.length_words - 1 + pad % 65536 / 4 < 65536 := by
      rw [hpm65]
      omega
    have hphlen : (patch_header last.write_to (pad % 65536 / 4)).length =
        4 * last.length_words := by
      rw [patch_header_length, hwlen]
    have hbuflen : (patch_pad last.write_to pad).length = 4 * last.length_words + pad := by
      unfold patch_pad
      simp only [List.length_append, List.length_replicate, List.length_singleton, hphlen]
      omega
    have hheadD : (patch_pad last.write_to pad).headD 0 = 160 + last.rcount := by
      unfold patch_pad
      rw [patch_header_write last _ hlast]
      rfl
    conv_lhs => unfold read_packet_go
    rw [if_neg (by
      intro hcon
      rw [List.isEmpty_eq_true] at hcon
      have := congrArg List.length hcon
      rw [hbuflen] at this
      simp at this
      omega)]
    rw [show patch_pad last.write_to pad =
      patch_header last.write_to (pad % 65536 / 4) ++
        (List.replicate (pad - 1) 0 ++ [pad % 256]) from rfl]
    rw [try_header_patched last _ _ hlast hk]
    dsimp only [RtcpHeader.length_words]
    rw [← show patch_pad last.write_to pad =
      patch_header last.write_to (pad % 65536 / 4) ++
        (List.replicate (pad - 1) 0 ++ [pad % 256]) from rfl]
    rw [hheadD]
    rw [band32h _ (by omega)]
    have harith : (last.length_words - 1 + pad % 65536 / 4 + 1) * 4 =
        4 * last.length_words + pad := by
      rw [hpm65]
      omega
    rw [harith]
    rw [if_neg (by rw [hbuflen]; omega)]
    simp only [eq_true (show (0 : Nat) < 32 from by omega), if_true]
    have hget : (patch_pad last.write_to pad).get? (4 * last.length_words + pad - 1) =
        some (pad % 256) := by
      have hshape : patch_pad last.write_to pad =
          (patch_header last.write_to (pad % 65536 / 4) ++ List.replicate (pad - 1) 0) ++
            [pad % 256] := by
        unfold patch_pad
        simp [List.append_assoc]
      rw [hshape]
      have hplen : (patch_header last.write_to (pad % 65536 / 4) ++
          List.replicate (pad - 1) 0).length = 4 * last.length_words + pad - 1 := by
        simp only [List.length_append, List.length_replicate, hphlen]
        omega
      rw [← hplen]
      rw [List.get?_eq_getElem?]
      exact List.getElem?_concat_length _ _
    rw [hget]
    dsimp only
    rw [show pad % 256 = pad from Nat.mod_eq_of_lt (by omega)]
    rw [if_neg (by
      rintro ⟨-, hcon⟩
      omega)]
    rw [if_neg (by rw [hbuflen]; omega)]
    rw [show 4 * last.length_words + pad - pad = 4 * last.length_words from by omega]
    have htake : (patch_pad last.write_to pad).take (4 * last.length_words) =
        patch_header last.write_to (pad % 65536 / 4) := by
      unfold patch_pad
      exact List.take_left' hphlen
    have hdropall : (patch_pad last.write_to pad).drop (4 * last.length_words + pad) = [] :=
      List.drop_eq_nil_of_le (by rw [hbuflen])
    rw [htake, hdropall, try_from_patched last _ hlast hk]
    obtain ⟨f2, rfl⟩ : ∃ f2, f = f2 + 1 := ⟨f - 1, by omega⟩
    simp [read_packet_go]

/-- Total byte size of a queue of packets. -/
def sum_bytes (L : List RtcpFb) : Nat := (L.map (fun p => p.length_words * 4)).sum

theorem sum_bytes_cons (fb : RtcpFb) (rest : List RtcpFb) :
    sum_bytes (fb :: rest) = fb.length_words * 4 + sum_bytes rest := by
  unfold sum_bytes
  simp

theorem write_loop_concat (packed : List RtcpFb) :
    ∀ (buf : List Nat) (total offset op0 : Nat),
      packed.all validFb = true →
      offset + sum_bytes packed ≤ total →
      total ≤ buf.length →
      ∃ lo, write_loop packed buf total offset op0 =
        some (offset + sum_bytes packed, lo,
          buf.take offset ++ (packed.map RtcpFb.write_to).flatten ++
            buf.drop (offset + sum_bytes packed), []) ∧
        (packed = [] → lo = op0) ∧
        (packed ≠ [] → lo = offset + sum_bytes packed.dropLast) := by
  induction packed with
  | nil =>
    intro buf total offset op0 _ _ _
    refine ⟨op0, ?_, fun _ => rfl, fun hne => absurd rfl hne⟩
    unfold write_loop sum_bytes
    simp [List.take_append_drop]
  | cons fb rest ih =>
    intro buf total offset op0 hv hsum htot
    simp only [List.all_cons, Bool.and_eq_true] at hv
    obtain ⟨hfb, hrest⟩ := hv
    have hwlen := fb.write_to_length hfb
    have hsc := sum_bytes_cons fb rest
    have hoff : offset ≤ buf.length := by omega
    have hoi : offset + fb.length_words * 4 ≤ buf.length := by omega
    unfold write_loop
    rw [if_neg (by omega)]
    rw [if_neg (by omega)]
    rw [if_neg (by omega)]
    have hclen : (copyAt buf offset fb.write_to).length = buf.length :=
      copyAt_length _ _ _ (by rw [hwlen]; omega)
    obtain ⟨lo, hlo, hnil, hcons⟩ := ih (copyAt buf offset fb.write_to) total
      (offset + fb.length_words * 4) offset hrest (by omega) (by omega)
    refine ⟨lo, ?_, fun hfalse => by simp at hfalse, fun _ => ?_⟩
    · rw [hlo]
      have htk : (copyAt buf offset fb.write_to).take (offset + fb.length_words * 4) =
          buf.take offset ++ fb.write_to := by
        unfold copyAt
        exact List.take_left' (by
          simp only [List.length_append, List.length_take, hwlen]
          omega)
      have hdr : (copyAt buf offset fb.write_to).drop
          (offset + fb.length_words * 4 + sum_bytes rest) =
          buf.drop (offset + sum_bytes (fb :: rest)) := by
        unfold copyAt
        rw [drop_append_ge _ _ _ (by
          simp only [List.length_append, List.length_take, hwlen]
          omega)]
        rw [List.drop_drop]
        congr 1
        simp only [List.length_append, List.length_take, hwlen, hsc]
        omega
      rw [htk, hdr]
      simp only [Option.some.injEq, Prod.mk.injEq]
      refine ⟨by omega, trivial, by simp [List.append_assoc], trivial⟩
    · by_cases hre : rest = []
      · subst hre
        simp only [List.dropLast_single]
        rw [hnil rfl]
        unfold sum_bytes
        simp
      · rw [hcons hre, List.dropLast_cons_of_ne_nil hre, sum_bytes_cons]
        omega

theorem pad_phase_skip (buf : List Nat) (offset op pad_to : Nat)
    (h : ¬(0 < offset ∧ 1 < pad_to ∧ pad_to - offset % pad_to < pad_to)) :
    pad_phase buf offset op pad_to = some (offset, buf) := by
  unfold pad_phase
  rw [if_neg h]

theorem pad_phase_surgery (I T body : List Nat) (b0 b1 b2 b3 : Nat) (pad pad_to : Nat)
    (hpadle : pad ≤ T.length) (hpos : 1 ≤ pad)
    (h2 : 1 < pad_to)
    (hpad : pad = pad_to - (I.length + (4 + body.length)) % pad_to)
    (hplt : pad < pad_to) :
    pad_phase (I ++ (b0 :: b1 :: b2 :: b3 :: body) ++ T)
      (I.length + (4 + body.length)) I.length pad_to =
      some (I.length + (4 + body.length) + pad,
        I ++ patch_header (b0 :: b1 :: b2 :: b3 :: body) (pad % 65536 / 4) ++
          (List.replicate (pad - 1) 0 ++ [pad % 256]) ++ T.drop pad) := by
  have hWlen : (b0 :: b1 :: b2 :: b3 :: body).length = 4 + body.length := by
    simp
    omega
  have hIWlen : (I ++ (b0 :: b1 :: b2 :: b3 :: body)).length = I.length + (4 + body.length) := by
    simp
    omega
  have hbuflen : (I ++ (b0 :: b1 :: b2 :: b3 :: body) ++ T).length =
      I.length + (4 + body.length) + T.length := by
    simp
    omega
  unfold pad_phase
  rw [← hpad]
  rw [if_pos ⟨by omega, h2, hplt⟩]
  rw [if_neg (by rw [hbuflen]; omega)]
  dsimp only
  have hshape1 : copyAt (I ++ (b0 :: b1 :: b2 :: b3 :: body) ++ T)
      (I.length + (4 + body.length)) (List.replicate pad 0) =
      (I ++ (b0 :: b1 :: b2 :: b3 :: body)) ++ List.replicate pad 0 ++ T.drop pad := by
    unfold copyAt
    rw [List.take_left' hIWlen]
    rw [List.length_replicate]
    rw [drop_append_ge _ _ _ (by rw [hIWlen]; omega)]
    rw [hIWlen]
    congr 2
    omega
  rw [hshape1]
  have hshape2 : ((I ++ (b0 :: b1 :: b2 :: b3 :: body)) ++ List.replicate pad 0 ++
      T.drop pad).set (I.length + (4 + body.length) + pad - 1) (pad % 256) =
      (I ++ (b0 :: b1 :: b2 :: b3 :: body)) ++
        (List.replicate (pad - 1) 0 ++ [pad % 256]) ++ T.drop pad := by
    rw [List.set_append_left _ _ (by
      simp only [List.length_append, List.length_replicate, hIWlen]
      omega)]
    rw [List.set_append_right _ _ (by rw [hIWlen]; omega)]
    rw [hIWlen]
    rw [show I.length + (4 + body.length) + pad - 1 - (I.length + (4 + body.length)) =
      pad - 1 from by omega]
    rw [show List.replicate pad (0 : Nat) = List.replicate (pad - 1 + 1) 0 from by
      congr 1
      omega]
    rw [replicate_set]
  rw [hshape2]
  rw [if_neg (by
    simp only [List.length_append, List.length_replicate, List.length_singleton, hIWlen]
    omega)]
  have hg2 : ((I ++ (b0 :: b1 :: b2 :: b3 :: body)) ++
      (List.replicate (pad - 1) 0 ++ [pad % 256]) ++ T.drop pad).getD (I.length + 2) 0 =
      b2 := by
    rw [getD_append_lt _ _ _ _ (by
      simp only [List.length_append, hIWlen]
      omega)]
    rw [getD_append_lt _ _ _ _ (by rw [hIWlen]; omega)]
    rw [getD_append_ge _ _ _ _ (by omega)]
    rw [show I.length + 2 - I.length = 2 from by omega]
    rfl
  have hg3 : ((I ++ (b0 :: b1 :: b2 :: b3 :: body)) ++
      (List.replicate (pad - 1) 0 ++ [pad % 256]) ++ T.drop pad).getD (I.length + 3) 0 =
      b3 := by
    rw [getD_append_lt _ _ _ _ (by
      simp only [List.length_append, hIWlen]
      omega)]
    rw [getD_append_lt _ _ _ _ (by rw [hIWlen]; omega)]
    rw [getD_append_ge _ _ _ _ (by omega)]
    rw [show I.length + 3 - I.length = 3 from by omega]
    rfl
  rw [hg2, hg3]
  have hset23 : ∀ hi lo : Nat,
      (((I ++ (b0 :: b1 :: b2 :: b3 :: body)) ++
        (List.replicate (pad - 1) 0 ++ [pad % 256]) ++ T.drop pad).set (I.length + 2) hi).set
          (I.length + 3) lo =
      (I ++ (b0 :: b1 :: hi :: lo :: body)) ++
        (List.replicate (pad - 1) 0 ++ [pad % 256]) ++ T.drop pad := by
    intro hi lo
    rw [List.set_append_left _ _ (by simp)]
    rw [List.set_append_left _ _ (by simp)]
    rw [List.set_append_left _ _ (by simp)]
    rw [List.set_append_left _ _ (by simp)]
    rw [List.set_append_right _ _ (by simp)]
    rw [show I.length + 2 - I.length = 2 from by omega]
    rw [List.set_append_right _ _ (by simp)]
    rw [show I.length + 3 - I.length = 3 from by omega]
    rfl
  rw [hset23]
  have hg0 : ((I ++ (b0 :: b1 ::
      ((b2 * 256 + b3 + pad % 65536 / 4) % 65536 / 256) ::
      ((b2 * 256 + b3 + pad % 65536 / 4) % 65536 % 256) :: body)) ++
      (List.replicate (pad - 1) 0 ++ [pad % 256]) ++ T.drop pad).getD I.length 0 = b0 := by
    rw [getD_append_lt _ _ _ _ (by
      simp only [List.length_append, List.length_cons]
      omega)]
    rw [getD_append_lt _ _ _ _ (by simp)]
    rw [getD_append_ge _ _ _ _ (by omega)]
    rw [Nat.sub_self]
    rfl
  rw [hg0]
  have hset0 : ((I ++ (b0 :: b1 ::
      ((b2 * 256 + b3 + pad % 65536 / 4) % 65536 / 256) ::
      ((b2 * 256 + b3 + pad % 65536 / 4) % 65536 % 256) :: body)) ++
      (List.replicate (pad - 1) 0 ++ [pad % 256]) ++ T.drop pad).set I.length (b0 ||| 32) =
      (I ++ ((b0 ||| 32) :: b1 ::
        ((b2 * 256 + b3 + pad % 65536 / 4) % 65536 / 256) ::
        ((b2 * 256 + b3 + pad % 65536 / 4) % 65536 % 256) :: body)) ++
        (List.replicate (pad - 1) 0 ++ [pad % 256]) ++ T.drop pad := by
    rw [List.set_append_left _ _ (by
      simp only [List.length_append, List.length_cons]
      omega)]
    rw [List.set_append_left _ _ (by simp)]
    rw [List.set_append_right _ _ (by omega)]
    rw [Nat.sub_self]
    rfl
  rw [hset0]
  rfl

/-- Total word size of a queue of packets. -/
def sum_words (L : List RtcpFb) : Nat := (L.map RtcpFb.length_words).sum

theorem sum_bytes_eq (L : List RtcpFb) : sum_bytes L = 4 * sum_words L := by
  unfold sum_bytes sum_words
  induction L with
  | nil => rfl
  | cons x rest ih =>
    simp only [List.map_cons, List.sum_cons, ih]
    ring

theorem getD_set_self (L : List RtcpFb) (i : Nat) (x : RtcpFb) (h : i < L.length) :
    (L.set i x).getD i RtcpFb.dummy = x := by
  simp [List.getD, List.getElem?_set_self', h]

theorem getD_set_other (L : List RtcpFb) (i j : Nat) (x : RtcpFb) (h : i ≠ j) :
    (L.set i x).getD j RtcpFb.dummy = L.getD j RtcpFb.dummy := by
  simp [List.getD, List.getElem?_set_ne h]

theorem getD_drop_add (L : List RtcpFb) (k n : Nat) :
    (L.drop k).getD n RtcpFb.dummy = L.getD (k + n) RtcpFb.dummy := by
  simp [List.getD, List.getElem?_drop]

theorem all_set (L : List RtcpFb) (i : Nat) (x : RtcpFb)
    (hL : L.all validFb = true) (hx : validFb x = true) :
    (L.set i x).all validFb = true := by
  simp only [List.all_eq_true] at hL ⊢
  intro y hy
  rcases List.mem_or_eq_of_mem_set hy with h | h
  · exact hL y h
  · rw [h]
    exact hx

theorem sum_words_set (L : List RtcpFb) (m : Nat) (x : RtcpFb) (hm : m < L.length) :
    sum_words (L.set m x) + (L.getD m RtcpFb.dummy).length_words =
      sum_words L + x.length_words := by
  induction L generalizing m with
  | nil => simp at hm
  | cons y rest ih =>
    cases m with
    | zero =>
      unfold sum_words
      simp [List.getD]
      omega
    | succ k =>
      simp only [List.set_cons_succ]
      unfold sum_words at *
      simp only [List.map_cons, List.sum_cons]
      have hg : (y :: rest).getD (k + 1) RtcpFb.dummy = rest.getD k RtcpFb.dummy := rfl
      rw [hg]
      have := ih k (by simp at hm; omega)
      omega

theorem sum_words_drop_set (L : List RtcpFb) (k m : Nat) (x : RtcpFb)
    (hk : k ≤ m) (hm : m < L.length) :
    sum_words ((L.set m x).drop k) + (L.getD m RtcpFb.dummy).length_words =
      sum_words (L.drop k) + x.length_words := by
  rw [List.drop_set]
  rw [if_neg (by omega)]
  have h1 : m - k < (L.drop k).length := by
    rw [List.length_drop]
    omega
  have h2 := sum_words_set (L.drop k) (m - k) x h1
  rw [getD_drop_add] at h2
  rw [show k + (m - k) = m from by omega] at h2
  exact h2

theorem sum_words_drop_succ (L : List RtcpFb) (i : Nat) (h : i < L.length) :
    sum_words (L.drop i) =
      (L.getD i RtcpFb.dummy).length_words + sum_words (L.drop (i + 1)) := by
  induction L generalizing i with
  | nil => simp at h
  | cons y rest ih =>
    cases i with
    | zero =>
      unfold sum_words
      simp [List.getD]
    | succ k =>
      simp only [List.drop_succ_cons]
      have hg : (y :: rest).getD (k + 1) RtcpFb.dummy = rest.getD k RtcpFb.dummy := rfl
      rw [hg]
      exact ih k (by simp at h; omega)

theorem getD_mem (L : List RtcpFb) (i : Nat) (h : i < L.length) :
    L.getD i RtcpFb.dummy ∈ L := by
  rw [List.getD_eq_getElem _ _ h]
  exact List.getElem_mem h

theorem lw_le_sum_drop (L : List RtcpFb) (i : Nat) (h : i < L.length) :
    (L.getD i RtcpFb.dummy).length_words ≤ sum_words (L.drop i) := by
  rw [sum_words_drop_succ L i h]
  omega

theorem aap_facts (ws : α → Nat) (s o : List α) (w : Nat) (p : α → Bool) :
    (append_all_possible ws s o w).1.length + (append_all_possible ws s o w).2.1.length =
      s.length + o.length ∧
    ((append_all_possible ws s o w).2.2 = 0 →
      (append_all_possible ws s o w).1 = s ∧ (append_all_possible ws s o w).2.1 = o) ∧
    (0 < (append_all_possible ws s o w).2.2 →
      s.length < (append_all_possible ws s o w).1.length) ∧
    (s.length ≤ 31 → (append_all_possible ws s o w).1.length ≤ 31) ∧
    s.length ≤ (append_all_possible ws s o w).1.length ∧
    (s.all p = true → o.all p = true →
      (append_all_possible ws s o w).1.all p = true ∧
        (append_all_possible ws s o w).2.1.all p = true) := by
  obtain ⟨k, hk, heq, hsum, hcap, hstop⟩ := append_all_possible_spec ws s o w
  rw [heq]
  dsimp only
  refine ⟨?_, ?_, ?_, ?_, ?_, ?_⟩
  · simp
    omega
  · intro hz
    subst hz
    simp
  · intro hpos
    simp
    omega
  · intro hle
    simp only [List.length_append, List.length_take]
    rcases hcap with h | h
    · omega
    · subst h
      simp
      omega
  · simp
  · intro hs ho
    simp only [List.all_eq_true] at hs ho ⊢
    constructor
    · intro x hx
      rcases List.mem_append.mp hx with h | h
      · exact hs x h
      · exact ho x (List.mem_of_mem_take h)
    · intro x hx
      exact ho x (List.mem_of_mem_drop hx)

theorem merge_spec (a b : RtcpFb) (w : Nat) :
    (a.merge b w).1.length_words + (a.merge b w).2.1.length_words =
      a.length_words + b.length_words ∧
    ((a.merge b w).2.2 = false → (a.merge b w).1 = a ∧ (a.merge b w).2.1 = b) ∧
    ((a.merge b w).2.2 = true → a.rcount < (a.merge b w).1.rcount) ∧
    a.rcount ≤ (a.merge b w).1.rcount ∧
    (validFb a = true → validFb b = true →
      validFb (a.merge b w).1 = true ∧ validFb (a.merge b w).2.1 = true) := by
  cases a with
  | senderReport va =>
    cases b with
    | receiverReport vb =>
      have hf := aap_facts ReceptionReport.word_size va.reports vb.reports w validReport
      obtain ⟨h1, h2, h3, h4, h5, h6⟩ := hf
      unfold RtcpFb.merge
      dsimp only [RtcpFb.length_words, RtcpFb.rcount]
      refine ⟨by omega, ?_, ?_, by omega, ?_⟩
      · intro hff
        simp only [decide_eq_false_iff_not, Nat.not_lt, Nat.le_zero] at hff
        obtain ⟨e1, e2⟩ := h2 hff
        rw [e1, e2]
        exact ⟨rfl, rfl⟩
      · intro htt
        simp only [decide_eq_true_eq] at htt
        exact h3 htt
      · intro hva hvb
        unfold validFb at hva hvb ⊢
        simp only [Bool.and_eq_true, decide_eq_true_eq] at hva hvb ⊢
        obtain ⟨⟨hsi, hrep⟩, hcnt⟩ := hva
        obtain ⟨hrep2, hcnt2⟩ := hvb
        obtain ⟨g1, g2⟩ := h6 hrep hrep2
        exact ⟨⟨⟨hsi, g1⟩, h4 hcnt⟩, g2, by omega⟩
    | senderReport vb => exact ⟨rfl, fun _ => ⟨rfl, rfl⟩, by simp [RtcpFb.merge], by simp [RtcpFb.merge], fun h1 h2 => ⟨h1, h2⟩⟩
    | sourceDescription vb => exact ⟨rfl, fun _ => ⟨rfl, rfl⟩, by simp [RtcpFb.merge], by simp [RtcpFb.merge], fun h1 h2 => ⟨h1, h2⟩⟩
    | goodbye vb => exact ⟨rfl, fun _ => ⟨rfl, rfl⟩, by simp [RtcpFb.merge], by simp [RtcpFb.merge], fun h1 h2 => ⟨h1, h2⟩⟩
  | receiverReport va =>
    cases b with
    | receiverReport vb =>
      have hf := aap_facts ReceptionReport.word_size va.reports vb.reports w validReport
      obtain ⟨h1, h2, h3, h4, h5, h6⟩ := hf
      unfold RtcpFb.merge
      dsimp only [RtcpFb.length_words, RtcpFb.rcount]
      refine ⟨by omega, ?_, ?_, by omega, ?_⟩
      · intro hff
        simp only [decide_eq_false_iff_not, Nat.not_lt, Nat.le_zero] at hff
        obtain ⟨e1, e2⟩ := h2 hff
        rw [e1, e2]
        exact ⟨rfl, rfl⟩
      · intro htt
        simp only [decide_eq_true_eq] at htt
        exact h3 htt
      · intro hva hvb
        unfold validFb at hva hvb ⊢
        simp only [Bool.and_eq_true, decide_eq_true_eq] at hva hvb ⊢
        obtain ⟨hrep, hcnt⟩ := hva
        obtain ⟨hrep2, hcnt2⟩ := hvb
        obtain ⟨g1, g2⟩ := h6 hrep hrep2
        exact ⟨⟨g1, h4 hcnt⟩, g2, by omega⟩
    | senderReport vb => exact ⟨rfl, fun _ => ⟨rfl, rfl⟩, by simp [RtcpFb.merge], by simp [RtcpFb.merge], fun h1 h2 => ⟨h1, h2⟩⟩
    | sourceDescription vb => exact ⟨rfl, fun _ => ⟨rfl, rfl⟩, by simp [RtcpFb.merge], by simp [RtcpFb.merge], fun h1 h2 => ⟨h1, h2⟩⟩
    | goodbye vb => exact ⟨rfl, fun _ => ⟨rfl, rfl⟩, by simp [RtcpFb.merge], by simp [RtcpFb.merge], fun h1 h2 => ⟨h1, h2⟩⟩
  | sourceDescription va =>
    cases b with
    | sourceDescription vb =>
      have hf := aap_facts Sdes.word_size va.reports vb.reports w validSdes
      obtain ⟨h1, h2, h3, h4, h5, h6⟩ := hf
      obtain ⟨k, hk, heq, hsum, hcap, hstop⟩ :=
        append_all_possible_spec Sdes.word_size va.reports vb.reports w
      unfold RtcpFb.merge
      dsimp only [RtcpFb.length_words, RtcpFb.rcount]
      refine ⟨?_, ?_, ?_, by omega, ?_⟩
      · rw [heq]
        dsimp only
        have : ((vb.reports.take k).map Sdes.word_size).sum +
            ((vb.reports.drop k).map Sdes.word_size).sum =
            (vb.reports.map Sdes.word_size).sum := by
          rw [← List.sum_append, ← List.map_append, List.take_append_drop]
        simp only [List.map_append, List.sum_append]
        omega
      · intro hff
        simp only [decide_eq_false_iff_not, Nat.not_lt, Nat.le_zero] at hff
        obtain ⟨e1, e2⟩ := h2 hff
        rw [e1, e2]
        exact ⟨rfl, rfl⟩
      · intro htt
        simp only [decide_eq_true_eq] at htt
        exact h3 htt
      · intro hva hvb
        unfold validFb at hva hvb ⊢
        simp only [Bool.and_eq_true, decide_eq_true_eq] at hva hvb ⊢
        obtain ⟨hrep, hcnt⟩ := hva
        obtain ⟨hrep2, hcnt2⟩ := hvb
        obtain ⟨g1, g2⟩ := h6 hrep hrep2
        exact ⟨⟨g1, h4 hcnt⟩, g2, by omega⟩
    | senderReport vb => exact ⟨rfl, fun _ => ⟨rfl, rfl⟩, by simp [RtcpFb.merge], by simp [RtcpFb.merge], fun h1 h2 => ⟨h1, h2⟩⟩
    | receiverReport vb => exact ⟨rfl, fun _ => ⟨rfl, rfl⟩, by simp [RtcpFb.merge], by simp [RtcpFb.merge], fun h1 h2 => ⟨h1, h2⟩⟩
    | goodbye vb => exact ⟨rfl, fun _ => ⟨rfl, rfl⟩, by simp [RtcpFb.merge], by simp [RtcpFb.merge], fun h1 h2 => ⟨h1, h2⟩⟩
  | goodbye va =>
    cases b with
    | goodbye vb =>
      have hf := aap_facts (fun _ => 1) va.reports vb.reports w
        (fun s => decide (s < 2 ^ 32))
      obtain ⟨h1, h2, h3, h4, h5, h6⟩ := hf
      unfold RtcpFb.merge
      dsimp only [RtcpFb.length_words, RtcpFb.rcount]
      refine ⟨by omega, ?_, ?_, by omega, ?_⟩
      · intro hff
        simp only [decide_eq_false_iff_not, Nat.not_lt, Nat.le_zero] at hff
        obtain ⟨e1, e2⟩ := h2 hff
        rw [e1, e2]
        exact ⟨rfl, rfl⟩
      · intro htt
        simp only [decide_eq_true_eq] at htt
        exact h3 htt
      · intro hva hvb
        unfold validFb at hva hvb ⊢
        simp only [Bool.and_eq_true, decide_eq_true_eq] at hva hvb ⊢
        obtain ⟨hrep, hcnt⟩ := hva
        obtain ⟨hrep2, hcnt2⟩ := hvb
        obtain ⟨g1, g2⟩ := h6 hrep hrep2
        exact ⟨⟨g1, h4 hcnt⟩, g2, by omega⟩
    | senderReport vb => exact ⟨rfl, fun _ => ⟨rfl, rfl⟩, by simp [RtcpFb.merge], by simp [RtcpFb.merge], fun h1 h2 => ⟨h1, h2⟩⟩
    | receiverReport vb => exact ⟨rfl, fun _ => ⟨rfl, rfl⟩, by simp [RtcpFb.merge], by simp [RtcpFb.merge], fun h1 h2 => ⟨h1, h2⟩⟩
    | sourceDescription vb => exact ⟨rfl, fun _ => ⟨rfl, rfl⟩, by simp [RtcpFb.merge], by simp [RtcpFb.merge], fun h1 h2 => ⟨h1, h2⟩⟩

theorem packInner_spec (cap i s : Nat) :
    ∀ (j : Nat) (fb : List RtcpFb) (anyChange : Bool),
      i < j →
      i < fb.length →
      j + s ≤ fb.length →
      sum_words (fb.drop i) ≤ cap →
      fb.all validFb = true →
      ∃ fb' any',
        RtcpFb.packInner cap i s j fb anyChange = (fb', any', false) ∧
        fb'.length = fb.length ∧
        fb'.all validFb = true ∧
        (∀ k, k ≤ i → sum_words (fb'.drop k) = sum_words (fb.drop k)) ∧
        (fb.getD i RtcpFb.dummy).rcount ≤ (fb'.getD i RtcpFb.dummy).rcount ∧
        (any' = true → anyChange = true ∨
          (fb.getD i RtcpFb.dummy).rcount < (fb'.getD i RtcpFb.dummy).rcount) := by
  induction s with
  | zero =>
    intro j fb anyChange _ _ _ _ hval
    exact ⟨fb, anyChange, rfl, rfl, hval, fun _ _ => rfl, le_refl _,
      fun h => Or.inl h⟩
  | succ t ih =>
    intro j fb anyChange hij hi hjs hcap hval
    have hj : j < fb.length := by omega
    unfold RtcpFb.packInner
    by_cases hstop : (fb.getD i RtcpFb.dummy).is_full || (fb.getD i RtcpFb.dummy).is_empty
    · rw [if_pos hstop]
      exact ⟨fb, anyChange, rfl, rfl, hval, fun _ _ => rfl, le_refl _,
        fun h => Or.inl h⟩
    · rw [if_neg hstop]
      have hlwle : (fb.getD i RtcpFb.dummy).length_words ≤ sum_words (fb.drop i) :=
        lw_le_sum_drop fb i hi
      rw [if_neg (by omega)]
      have hmv := merge_spec (fb.getD i RtcpFb.dummy) (fb.getD j RtcpFb.dummy)
        (cap - (fb.getD i RtcpFb.dummy).length_words)
      obtain ⟨hm1, hm2, hm3, hm4, hm5⟩ := hmv
      have hvi : validFb (fb.getD i RtcpFb.dummy) = true := by
        have := List.all_eq_true.mp hval _ (getD_mem fb i hi)
        exact this
      have hvj : validFb (fb.getD j RtcpFb.dummy) = true := by
        have := List.all_eq_true.mp hval _ (getD_mem fb j hj)
        exact this
      obtain ⟨hva', hvb'⟩ := hm5 hvi hvj
      set m := (fb.getD i RtcpFb.dummy).merge (fb.getD j RtcpFb.dummy)
        (cap - (fb.getD i RtcpFb.dummy).length_words) with hm
      set fb1 := (fb.set i m.1).set j m.2.1 with hfb1
      have hlen1 : fb1.length = fb.length := by
        rw [hfb1]
        simp
      have hgi1 : fb1.getD i RtcpFb.dummy = m.1 := by
        rw [hfb1, getD_set_other _ _ _ _ (by omega), getD_set_self _ _ _ (by omega)]
      have hsum1 : ∀ k, k ≤ i → sum_words (fb1.drop k) = sum_words (fb.drop k) := by
        intro k hk
        have hA := sum_words_drop_set fb k i m.1 hk hi
        have hgAj : (fb.set i m.1).getD j RtcpFb.dummy = fb.getD j RtcpFb.dummy :=
          getD_set_other _ _ _ _ (by omega)
        have hB := sum_words_drop_set (fb.set i m.1) k j m.2.1 (by omega)
          (by simp; omega)
        rw [hgAj] at hB
        rw [hfb1]
        omega
      have hval1 : fb1.all validFb = true := by
        rw [hfb1]
        exact all_set _ _ _ (all_set _ _ _ hval hva') hvb'
      obtain ⟨fb', any', hrec, hlen', hval', hsums', hrc', hchg'⟩ :=
        ih (j + 1) fb1 (anyChange || m.2.2) (by omega) (by omega)
          (by omega) (by rw [hsum1 i (le_refl i)]; omega) hval1
      refine ⟨fb', any', ?_, by omega, hval', ?_, ?_, ?_⟩
      · rw [← hrec]
      · intro k hk
        rw [hsums' k hk, hsum1 k hk]
      · rw [hgi1] at hrc'
        omega
      · intro hany
        rcases hchg' hany with hor | hlt
        · rcases Bool.or_eq_true_iff.mp hor with h | h
          · exact Or.inl h
          · right
            have := hm3 h
            rw [hgi1] at hrc'
            omega
        · right
          rw [hgi1] at hlt
          omega

theorem rcount_le_of_all (fb : List RtcpFb) (i : Nat) (hi : i < fb.length)
    (hval : fb.all validFb = true) : (fb.getD i RtcpFb.dummy).rcount ≤ 31 :=
  RtcpFb.rcount_le _ (List.all_eq_true.mp hval _ (getD_mem fb i hi))

theorem packGo_spec : ∀ (fuel cap i : Nat) (fb : List RtcpFb),
    i < fb.length →
    fb.length < usizeMod →
    cap < usizeMod →
    sum_words (fb.drop i) ≤ cap →
    fb.all validFb = true →
    32 * (fb.length - 1 - i) + (32 - (fb.getD i RtcpFb.dummy).rcount) + 1 ≤ fuel →
    ∃ fb', RtcpFb.packGo fuel cap i fb fb.length = some fb' ∧
      fb'.length = fb.length ∧ fb'.all validFb = true ∧
      sum_words fb' = sum_words fb := by
  intro fuel
  induction fuel with
  | zero =>
    intro cap i fb _ _ _ _ _ hfuel
    omega
  | succ f ih =>
    intro cap i fb hi hlen hcap hsum hval hfuel
    have hci : (fb.getD i RtcpFb.dummy).rcount ≤ 31 := rcount_le_of_all fb i hi hval
    unfold RtcpFb.packGo
    have hsub : sub64 fb.length 1 = fb.length - 1 := sub64_eq _ _ (by omega) hlen
    rw [hsub]
    by_cases hlast : i = fb.length - 1
    · rw [if_pos hlast]
      exact ⟨fb, rfl, rfl, hval, rfl⟩
    · rw [if_neg hlast]
      rw [if_neg (by omega)]
      obtain ⟨fb1, any, hinner, hlen1, hval1, hsums1, hrc1, hchg1⟩ :=
        packInner_spec cap i (fb.length - (i + 1)) (i + 1) fb false (by omega) hi
          (by omega) hsum hval
      rw [hinner]
      dsimp only
      rw [if_neg Bool.false_ne_true]
      have hsum10 : sum_words fb1 = sum_words fb := by
        have := hsums1 0 (by omega)
        simpa using this
      have hsumi : sum_words (fb1.drop i) = sum_words (fb.drop i) := hsums1 i (le_refl i)
      by_cases hany : any = true
      · rw [hany, if_pos rfl]
        have hrclt : (fb.getD i RtcpFb.dummy).rcount < (fb1.getD i RtcpFb.dummy).rcount := by
          rcases hchg1 hany with h | h
          · simp at h
          · exact h
        have hc1 : (fb1.getD i RtcpFb.dummy).rcount ≤ 31 :=
          rcount_le_of_all fb1 i (by omega) hval1
        obtain ⟨fb', hgo, hl', hv', hs'⟩ := ih cap i fb1 (by omega) (by omega) hcap
          (by omega) hval1 (by omega)
        rw [hlen1] at hgo
        exact ⟨fb', hgo, by omega, hv', by omega⟩
      · have hanyf : any = false := by
          revert hany
          cases any <;> simp
        rw [hanyf, if_neg Bool.false_ne_true]
        have hlw1 : (fb1.getD i RtcpFb.dummy).length_words ≤ sum_words (fb1.drop i) :=
          lw_le_sum_drop fb1 i (by omega)
        have hsubeq : sub64 cap (fb1.getD i RtcpFb.dummy).length_words =
            cap - (fb1.getD i RtcpFb.dummy).length_words :=
          sub64_eq _ _ (by omega) hcap
        rw [hsubeq]
        have hdsucc := sum_words_drop_succ fb1 i (by omega)
        have hc1 : (fb1.getD i RtcpFb.dummy).rcount ≤ 31 :=
          rcount_le_of_all fb1 i (by omega) hval1
        obtain ⟨fb', hgo, hl', hv', hs'⟩ := ih
          (cap - (fb1.getD i RtcpFb.dummy).length_words) (i + 1) fb1
          (by omega) (by omega) (by omega) (by omega) hval1 (by omega)
        rw [hlen1] at hgo
        exact ⟨fb', hgo, by omega, hv', by omega⟩

theorem sum_words_filter_le (L : List RtcpFb) (p : RtcpFb → Bool) :
    sum_words (L.filter p) ≤ sum_words L := by
  induction L with
  | nil => exact le_refl _
  | cons x rest ih =>
    unfold sum_words at *
    by_cases hx : p x
    · rw [List.filter_cons_of_pos hx]
      simp only [List.map_cons, List.sum_cons]
      omega
    · rw [List.filter_cons_of_neg hx]
      simp only [List.map_cons, List.sum_cons]
      omega

theorem all_filter_of_all (L : List RtcpFb) (p : RtcpFb → Bool)
    (h : L.all validFb = true) : (L.filter p).all validFb = true := by
  simp only [List.all_eq_true] at h ⊢
  intro x hx
  exact h x (List.mem_of_mem_filter hx)

theorem pack_spec (q : List RtcpFb) (cap : Nat)
    (hne : q ≠ []) (hq : q.all validFb = true)
    (hlen : q.length < usizeMod) (hcap : cap < usizeMod)
    (hcapge : sum_words q ≤ cap) :
    ∃ packed, RtcpFb.pack q cap = some packed ∧ packed.all validFb = true ∧
      sum_words packed ≤ sum_words q := by
  unfold RtcpFb.pack
  have hlp : 0 < q.length := List.length_pos.mpr hne
  have hc0 := rcount_le_of_all q 0 hlp hq
  obtain ⟨fb', hgo, hl, hv, hs⟩ := packGo_spec (32 * q.length + 2) cap 0 q hlp hlen hcap
    (by simpa using hcapge) hq (by omega)
  rw [hgo]
  refine ⟨_, rfl, all_filter_of_all fb' _ hv, ?_⟩
  rw [← hs]
  exact sum_words_filter_le fb' _

theorem length_le_sum_words (L : List RtcpFb) : L.length ≤ sum_words L := by
  induction L with
  | nil => exact le_refl _
  | cons x rest ih =>
    unfold sum_words at *
    simp only [List.map_cons, List.sum_cons, List.length_cons]
    have := x.length_words_pos
    omega

theorem flat_bytes_length (L : List RtcpFb) (h : L.all validFb = true) :
    ((L.map RtcpFb.write_to).flatten).length = sum_bytes L := by
  rw [flatten_length_of _ (fun p => p.length_words * 4) _ (fun p hp => by
    rw [RtcpFb.write_to_length p (List.all_eq_true.mp h p hp)]
    ring)]
  rfl

theorem read_list_concat (L : List RtcpFb) (hv : L.all validFb = true) :
    read_packet_list ((L.map RtcpFb.write_to).flatten) = L := by
  unfold read_packet_list read_packet
  rw [read_packet_go_concat L _ hv (by
    rw [flat_bytes_length L hv, sum_bytes_eq]
    have h1 := length_le_sum_words L
    omega)]
  rfl

theorem sum_bytes_append (A B : List RtcpFb) :
    sum_bytes (A ++ B) = sum_bytes A + sum_bytes B := by
  unfold sum_bytes
  simp

theorem patch_header_cons_length (b0 b1 b2 b3 : Nat) (t : List Nat) (k : Nat) :
    (patch_header (b0 :: b1 :: b2 :: b3 :: t) k).length = 4 + t.length := by
  unfold patch_header
  simp
  omega

theorem read_list_padded (init : List RtcpFb) (last : RtcpFb) (pad : Nat)
    (hv : init.all validFb = true) (hlast : validFb last = true)
    (hp4 : 4 ≤ pad) (hp255 : pad ≤ 255) (hpm : pad % 4 = 0) :
    read_packet_list ((init.map RtcpFb.write_to).flatten ++ patch_pad last.write_to pad) =
      init ++ [last] := by
  unfold read_packet_list read_packet
  rw [read_packet_go_padded init last pad _ hv hlast hp4 hp255 hpm (by
    have h1 := length_le_sum_words init
    have h2 : ((init.map RtcpFb.write_to).flatten).length = sum_bytes init :=
      flat_bytes_length init hv
    have h3 := sum_bytes_eq init
    have h4 : 1 ≤ (patch_pad last.write_to pad).length := by
      simp only [patch_pad, List.length_append, List.length_replicate,
        List.length_cons, List.length_nil]
      omega
    simp only [List.length_append]
    omega)]
  rfl

/-- Full behaviour of `write_packet` on a valid queue that fits the buffer
with a word of padding room: the packed queue is written contiguously from
offset 0, the padding step (when taken) patches only the last packet, the
returned offset is a multiple of `pad_to` within the rounded-down budget,
and reading the written prefix back recovers the packed queue. -/
theorem write_packet_roundtrip (q : List RtcpFb) (buf : List Nat) (pad_to : Nat)
    (hne : q ≠ []) (hq : q.all validFb = true)
    (hqlen : q.length < usizeMod) (hblen : buf.length < usizeMod)
    (hpt4 : 4 ≤ pad_to) (hptm : pad_to % 4 = 0) (hpt256 : pad_to ≤ 256)
    (hfits : sum_bytes q + pad_to ≤ buf.length) :
    ∃ packed n buf2,
      RtcpFb.pack q ((buf.length - buf.length % pad_to) / 4) = some packed ∧
      packed.all validFb = true ∧
      write_packet q buf pad_to = some (n, buf2, []) ∧
      read_packet_list (buf2.take n) = packed ∧
      n % pad_to = 0 ∧ n ≤ buf.length - buf.length % pad_to ∧
      (sum_bytes packed % pad_to = 0 →
        n = sum_bytes packed ∧ buf2.take n = (packed.map RtcpFb.write_to).flatten) ∧
      (sum_bytes packed % pad_to ≠ 0 →
        ∃ hpne : packed ≠ [],
          n = sum_bytes packed + (pad_to - sum_bytes packed % pad_to) ∧
          buf2.take n =
            (packed.dropLast.map RtcpFb.write_to).flatten ++
              patch_pad (packed.getLast hpne).write_to
                (pad_to - sum_bytes packed % pad_to)) := by
  have hpt0 : pad_to ≠ 0 := by omega
  have hmod_lt : buf.length % pad_to < pad_to := Nat.mod_lt _ (by omega)
  have htotq : buf.length - buf.length % pad_to = pad_to * (buf.length / pad_to) := by
    have := Nat.div_add_mod buf.length pad_to
    omega
  have hqtot : sum_bytes q ≤ buf.length - buf.length % pad_to := by omega
  have hcap : (buf.length - buf.length % pad_to) / 4 < usizeMod := by
    have h1 : (buf.length - buf.length % pad_to) / 4 ≤ buf.length - buf.length % pad_to :=
      Nat.div_le_self _ _
    omega
  have hsw : sum_words q ≤ (buf.length - buf.length % pad_to) / 4 := by
    rw [Nat.le_div_iff_mul_le (by norm_num)]
    have := sum_bytes_eq q
    omega
  obtain ⟨packed, hpack, hpv, hswle⟩ :=
    pack_spec q ((buf.length - buf.length % pad_to) / 4) hne hq hqlen hcap hsw
  have hsble : sum_bytes packed ≤ sum_bytes q := by
    rw [sum_bytes_eq, sum_bytes_eq]
    omega
  have hptot : sum_bytes packed ≤ buf.length - buf.length % pad_to := by omega
  obtain ⟨lo, hloop, hlonil, hlocons⟩ := write_loop_concat packed buf
    (buf.length - buf.length % pad_to) 0 0 hpv (by omega) (by omega)
  simp only [Nat.zero_add, List.take_zero, List.nil_append] at hloop hlocons
  have hFlen : ((packed.map RtcpFb.write_to).flatten).length = sum_bytes packed :=
    flat_bytes_length packed hpv
  by_cases hcase : sum_bytes packed % pad_to = 0
  · -- the padding branch is skipped
    have hwp : write_packet q buf pad_to = some (sum_bytes packed,
        (packed.map RtcpFb.write_to).flatten ++ buf.drop (sum_bytes packed), []) := by
      unfold write_packet
      rw [if_neg hpt0, if_neg (by simp [hptm])]
      dsimp only
      rw [hpack]
      dsimp only
      rw [hloop]
      dsimp only
      rw [pad_phase_skip _ _ _ _ (by
        rintro ⟨-, -, hlt⟩
        rw [hcase] at hlt
        omega)]
    have htake : (((packed.map RtcpFb.write_to).flatten ++
        buf.drop (sum_bytes packed)).take (sum_bytes packed)) =
        (packed.map RtcpFb.write_to).flatten :=
      List.take_left' hFlen
    refine ⟨packed, sum_bytes packed, _, hpack, hpv, hwp, ?_, hcase, hptot,
      fun _ => ⟨rfl, htake⟩, fun hc => absurd hcase hc⟩
    rw [htake]
    exact read_list_concat packed hpv
  · -- the padding branch is taken
    have hoffpos : 0 < sum_bytes packed := by
      rcases Nat.eq_zero_or_pos (sum_bytes packed) with h0 | h
      · rw [h0] at hcase
        simp at hcase
      · exact h
    have hpne : packed ≠ [] := by
      intro h0
      rw [h0] at hoffpos
      simp [sum_bytes] at hoffpos
    have hlo := hlocons hpne
    obtain ⟨pinit, plast, rfl⟩ : ∃ i l, packed = i ++ [l] :=
      ⟨packed.dropLast, packed.getLast hpne, (List.dropLast_append_getLast hpne).symm⟩
    have hpv' : pinit.all validFb = true ∧ validFb plast = true := by
      simpa [List.all_append] using hpv
    have hIlen : ((pinit.map RtcpFb.write_to).flatten).length = sum_bytes pinit :=
      flat_bytes_length _ hpv'.1
    have hWlen : plast.write_to.length = plast.length_words * 4 := by
      rw [plast.write_to_length hpv'.2, Nat.mul_comm]
    have hlw := plast.length_words_pos
    have hbody : plast.body_bytes.length = plast.length_words * 4 - 4 := by
      have h := hWlen
      rw [write_to_cons] at h
      simp at h
      omega
    have hsum_split : sum_bytes (pinit ++ [plast]) =
        sum_bytes pinit + plast.length_words * 4 := by
      rw [sum_bytes_append]
      unfold sum_bytes
      simp
    have hlo' : lo = sum_bytes pinit := by
      rw [hlo, List.dropLast_concat]
    have hoffeq : sum_bytes (pinit ++ [plast]) =
        ((pinit.map RtcpFb.write_to).flatten).length +
          (4 + plast.body_bytes.length) := by
      rw [hIlen, hbody, hsum_split]
      omega
    have hFsplit : ((pinit ++ [plast]).map RtcpFb.write_to).flatten =
        (pinit.map RtcpFb.write_to).flatten ++ plast.write_to := by
      simp
    have hs_lt : sum_bytes (pinit ++ [plast]) % pad_to < pad_to :=
      Nat.mod_lt _ (by omega)
    have hdm := Nat.div_add_mod (sum_bytes (pinit ++ [plast])) pad_to
    have hdvd4 : (pad_to - sum_bytes (pinit ++ [plast]) % pad_to) % 4 = 0 := by
      have h1 : (4 : Nat) ∣ sum_bytes (pinit ++ [plast]) :=
        ⟨sum_words (pinit ++ [plast]), sum_bytes_eq _⟩
      have h2 : (4 : Nat) ∣ pad_to := Nat.dvd_of_mod_eq_zero hptm
      have h3 : (4 : Nat) ∣ pad_to * (sum_bytes (pinit ++ [plast]) / pad_to) :=
        h2.mul_right _
      have h4 : (4 : Nat) ∣ sum_bytes (pinit ++ [plast]) % pad_to := by
        have h5 : sum_bytes (pinit ++ [plast]) % pad_to =
            sum_bytes (pinit ++ [plast]) -
              pad_to * (sum_bytes (pinit ++ [plast]) / pad_to) := by omega
        rw [h5]
        exact Nat.dvd_sub' h1 h3
      obtain ⟨c, hc⟩ := Nat.dvd_sub' h2 h4
      omega
    have hp4 : 4 ≤ pad_to - sum_bytes (pinit ++ [plast]) % pad_to := by omega
    have hp255 : pad_to - sum_bytes (pinit ++ [plast]) % pad_to ≤ 255 := by omega
    have hTlen : (buf.drop (sum_bytes (pinit ++ [plast]))).length =
        buf.length - sum_bytes (pinit ++ [plast]) := by
      simp
    have hpadle : pad_to - sum_bytes (pinit ++ [plast]) % pad_to ≤
        (buf.drop (sum_bytes (pinit ++ [plast]))).length := by
      rw [hTlen]
      omega
    have hsurg := pad_phase_surgery ((pinit.map RtcpFb.write_to).flatten)
      (buf.drop (sum_bytes (pinit ++ [plast]))) plast.body_bytes
      (128 + plast.rcount % 32) plast.rtcp_type_code
      ((plast.length_words - 1) % 65536 / 256) ((plast.length_words - 1) % 65536 % 256)
      (pad_to - sum_bytes (pinit ++ [plast]) % pad_to) pad_to
      hpadle (by omega) (by omega) (by rw [← hoffeq]) (by omega)
    rw [← hoffeq, hIlen, ← hlo'] at hsurg
    have hwp : write_packet q buf pad_to =
        some (sum_bytes (pinit ++ [plast]) +
            (pad_to - sum_bytes (pinit ++ [plast]) % pad_to),
          (pinit.map RtcpFb.write_to).flatten ++
            patch_header
              ((128 + plast.rcount % 32) :: plast.rtcp_type_code ::
                ((plast.length_words - 1) % 65536 / 256) ::
                ((plast.length_words - 1) % 65536 % 256) :: plast.body_bytes)
              ((pad_to - sum_bytes (pinit ++ [plast]) % pad_to) % 65536 / 4) ++
            (List.replicate ((pad_to - sum_bytes (pinit ++ [plast]) % pad_to) - 1) 0 ++
              [(pad_to - sum_bytes (pinit ++ [plast]) % pad_to) % 256]) ++
            (buf.drop (sum_bytes (pinit ++ [plast]))).drop
              (pad_to - sum_bytes (pinit ++ [plast]) % pad_to), []) := by
      unfold write_packet
      rw [if_neg hpt0, if_neg (by simp [hptm])]
      dsimp only
      rw [hpack]
      dsimp only
      rw [hloop]
      dsimp only
      rw [hFsplit, write_to_cons, hsurg]
    have hPHlen : (patch_header
        ((128 + plast.rcount % 32) :: plast.rtcp_type_code ::
          ((plast.length_words - 1) % 65536 / 256) ::
          ((plast.length_words - 1) % 65536 % 256) :: plast.body_bytes)
        ((pad_to - sum_bytes (pinit ++ [plast]) % pad_to) % 65536 / 4)).length =
        4 + plast.body_bytes.length :=
      patch_header_cons_length _ _ _ _ _ _
    have hprefixlen : ((pinit.map RtcpFb.write_to).flatten ++
        patch_header
          ((128 + plast.rcount % 32) :: plast.rtcp_type_code ::
            ((plast.length_words - 1) % 65536 / 256) ::
            ((plast.length_words - 1) % 65536 % 256) :: plast.body_bytes)
          ((pad_to - sum_bytes (pinit ++ [plast]) % pad_to) % 65536 / 4) ++
        (List.replicate ((pad_to - sum_bytes (pinit ++ [plast]) % pad_to) - 1) 0 ++
          [(pad_to - sum_bytes (pinit ++ [plast]) % pad_to) % 256])).length =
        sum_bytes (pinit ++ [plast]) +
          (pad_to - sum_bytes (pinit ++ [plast]) % pad_to) := by
      simp only [List.length_append, hPHlen, hIlen, List.length_replicate,
        List.length_cons, List.length_nil]
      omega
    have htake : ((pinit.map RtcpFb.write_to).flatten ++
        patch_header
          ((128 + plast.rcount % 32) :: plast.rtcp_type_code ::
            ((plast.length_words - 1) % 65536 / 256) ::
            ((plast.length_words - 1) % 65536 % 256) :: plast.body_bytes)
          ((pad_to - sum_bytes (pinit ++ [plast]) % pad_to) % 65536 / 4) ++
        (List.replicate ((pad_to - sum_bytes (pinit ++ [plast]) % pad_to) - 1) 0 ++
          [(pad_to - sum_bytes (pinit ++ [plast]) % pad_to) % 256]) ++
        (buf.drop (sum_bytes (pinit ++ [plast]))).drop
          (pad_to - sum_bytes (pinit ++ [plast]) % pad_to)).take
          (sum_bytes (pinit ++ [plast]) +
            (pad_to - sum_bytes (pinit ++ [plast]) % pad_to)) =
        (pinit.map RtcpFb.write_to).flatten ++
        patch_header
          ((128 + plast.rcount % 32) :: plast.rtcp_type_code ::
            ((plast.length_words - 1) % 65536 / 256) ::
            ((plast.length_words - 1) % 65536 % 256) :: plast.body_bytes)
          ((pad_to - sum_bytes (pinit ++ [plast]) % pad_to) % 65536 / 4) ++
        (List.replicate ((pad_to - sum_bytes (pinit ++ [plast]) % pad_to) - 1) 0 ++
          [(pad_to - sum_bytes (pinit ++ [plast]) % pad_to) % 256]) :=
      List.take_left' hprefixlen
    have hpp : (pinit.map RtcpFb.write_to).flatten ++
        patch_header
          ((128 + plast.rcount % 32) :: plast.rtcp_type_code ::
            ((plast.length_words - 1) % 65536 / 256) ::
            ((plast.length_words - 1) % 65536 % 256) :: plast.body_bytes)
          ((pad_to - sum_bytes (pinit ++ [plast]) % pad_to) % 65536 / 4) ++
        (List.replicate ((pad_to - sum_bytes (pinit ++ [plast]) % pad_to) - 1) 0 ++
          [(pad_to - sum_bytes (pinit ++ [plast]) % pad_to) % 256]) =
        (pinit.map RtcpFb.write_to).flatten ++
          patch_pad plast.write_to (pad_to - sum_bytes (pinit ++ [plast]) % pad_to) := by
      rw [patch_pad, write_to_cons, List.append_assoc]
    conv at htake => rhs; rw [hpp]
    have hread : read_packet_list ((pinit.map RtcpFb.write_to).flatten ++
        patch_pad plast.write_to (pad_to - sum_bytes (pinit ++ [plast]) % pad_to)) =
        pinit ++ [plast] :=
      read_list_padded pinit plast _ hpv'.1 hpv'.2 hp4 hp255 hdvd4
    have hn : sum_bytes (pinit ++ [plast]) +
        (pad_to - sum_bytes (pinit ++ [plast]) % pad_to) =
        pad_to * (sum_bytes (pinit ++ [plast]) / pad_to + 1) := by
      have h1 : pad_to * (sum_bytes (pinit ++ [plast]) / pad_to + 1) =
          pad_to * (sum_bytes (pinit ++ [plast]) / pad_to) + pad_to := by ring
      omega
    have htmod : (buf.length - buf.length % pad_to) % pad_to = 0 := by
      rw [htotq]
      exact Nat.mul_mod_right _ _
    have hofflt : sum_bytes (pinit ++ [plast]) < buf.length - buf.length % pad_to := by
      rcases eq_or_lt_of_le hptot with heq | hlt
      · rw [heq] at hcase
        exact absurd htmod hcase
      · exact hlt
    have hqlt : sum_bytes (pinit ++ [plast]) / pad_to < buf.length / pad_to := by
      have h1 : pad_to * (sum_bytes (pinit ++ [plast]) / pad_to) <
          pad_to * (buf.length / pad_to) := by omega
      exact Nat.lt_of_mul_lt_mul_left h1
    have hnle : pad_to * (sum_bytes (pinit ++ [plast]) / pad_to + 1) ≤
        pad_to * (buf.length / pad_to) :=
      Nat.mul_le_mul_left _ (by omega)
    refine ⟨pinit ++ [plast], _, _, hpack, hpv, hwp, ?_, ?_, ?_,
      fun hc => absurd hc hcase, fun _ => ⟨by simp, rfl, ?_⟩⟩
    · rw [htake]
      exact hread
    · rw [hn]
      exact Nat.mul_mod_right _ _
    · omega
    · rw [htake, List.dropLast_concat, List.getLast_concat]

theorem packGo_single (fuel cap : Nat) (p : RtcpFb) :
    RtcpFb.packGo (fuel + 1) cap 0 [p] 1 = some [p] := by
  unfold RtcpFb.packGo
  rw [if_pos (by decide : (0 : Nat) = sub64 1 1)]

theorem packGo_abort (fuel cap : Nat) (p : RtcpFb) (rest : List RtcpFb)
    (hr : rest ≠ []) (hlen : rest.length + 1 < usizeMod)
    (hnf : p.is_full = false) (hne : p.is_empty = false)
    (hcap : cap < p.length_words) :
    RtcpFb.packGo (fuel + 1) cap 0 (p :: rest) (rest.length + 1) = some (p :: rest) := by
  have hrl : 1 ≤ rest.length := by
    cases rest with
    | nil => exact absurd rfl hr
    | cons a t => simp
  have hs : sub64 (rest.length + 1) 1 = rest.length :=
    (sub64_eq _ _ (by omega) hlen).trans (by omega)
  obtain ⟨s, hs'⟩ : ∃ s, rest.length = s + 1 := ⟨rest.length - 1, by omega⟩
  have hpi : RtcpFb.packInner cap 0 (s + 1) 1 (p :: rest) false = (p :: rest, false, true) := by
    unfold RtcpFb.packInner
    simp only [List.getD_cons_zero, hnf, hne, Bool.or_self]
    rw [if_neg (by simp), if_pos hcap]
  unfold RtcpFb.packGo
  rw [if_neg (by rw [hs]; omega), if_neg (by omega)]
  dsimp only
  rw [show rest.length + 1 - (0 + 1) = s + 1 by omega, hpi]
  simp

theorem getD_take_lt (l : List Nat) (n j d : Nat) (h : j < n) :
    (l.take n).getD j d = l.getD j d := by
  simp [List.getD, List.getElem?_take, h]

theorem all_dropLast (L : List RtcpFb) (p : RtcpFb → Bool) (h : L.all p = true) :
    L.dropLast.all p = true := by
  simp only [List.all_eq_true] at h ⊢
  intro x hx
  exact h x (List.dropLast_subset _ hx)

theorem write_loop_offset_le (L : List RtcpFb) :
    ∀ (buf : List Nat) (total offset op : Nat) (r : Nat × Nat × List Nat × List RtcpFb),
      write_loop L buf total offset op = some r → offset ≤ total → r.1 ≤ total := by
  induction L with
  | nil =>
    intro buf total offset op r h hle
    unfold write_loop at h
    cases h
    exact hle
  | cons fb rest ih =>
    intro buf total offset op r h hle
    unfold write_loop at h
    dsimp only at h
    split at h
    · cases h
      exact hle
    · split at h
      · exact absurd h (by simp)
      · split at h
        · exact absurd h (by simp)
        · exact ih _ _ _ _ _ h (by omega)

theorem write_loop_buf_length (L : List RtcpFb) :
    ∀ (buf : List Nat) (total offset op : Nat) (r : Nat × Nat × List Nat × List RtcpFb),
      write_loop L buf total offset op = some r → r.2.2.1.length = buf.length := by
  induction L with
  | nil =>
    intro buf total offset op r h
    unfold write_loop at h
    cases h
    rfl
  | cons fb rest ih =>
    intro buf total offset op r h
    unfold write_loop at h
    dsimp only at h
    split at h
    · cases h
      rfl
    · split at h
      · exact absurd h (by simp)
      · split at h
        · exact absurd h (by simp)
        · rename_i hfit hlen hexact
          rw [ih _ _ _ _ _ h]
          exact copyAt_length _ _ _ (by omega)

theorem pad_phase_bounds (buf : List Nat) (offset op pad_to : Nat) (n : Nat)
    (buf2 : List Nat) (h : pad_phase buf offset op pad_to = some (n, buf2))
    (h4 : 4 ≤ pad_to) (htot : offset ≤ buf.length - buf.length % pad_to) :
    n % pad_to = 0 ∧ n ≤ buf.length - buf.length % pad_to := by
  have hpt0 : 0 < pad_to := by omega
  have hmlt : buf.length % pad_to < pad_to := Nat.mod_lt _ hpt0
  have htotq : buf.length - buf.length % pad_to = pad_to * (buf.length / pad_to) := by
    have := Nat.div_add_mod buf.length pad_to
    omega
  have htmod : (buf.length - buf.length % pad_to) % pad_to = 0 := by
    rw [htotq]
    exact Nat.mul_mod_right _ _
  have hom := Nat.div_add_mod offset pad_to
  have homlt : offset % pad_to < pad_to := Nat.mod_lt _ hpt0
  unfold pad_phase at h
  dsimp only at h
  split at h
  · -- padding taken: n = offset + (pad_to - offset % pad_to)
    rename_i hcond
    obtain ⟨hop, -, hplt⟩ := hcond
    have hrne : offset % pad_to ≠ 0 := by omega
    split at h
    · exact absurd h (by simp)
    · split at h
      · exact absurd h (by simp)
      · have hn : n = offset + (pad_to - offset % pad_to) := by
          cases h
          rfl
        have hofflt : offset < buf.length - buf.length % pad_to := by
          rcases eq_or_lt_of_le htot with heq | hlt
          · rw [heq] at hrne
            exact absurd htmod hrne
          · exact hlt
        have hneq : n = pad_to * (offset / pad_to + 1) := by
          have h1 : pad_to * (offset / pad_to + 1) =
              pad_to * (offset / pad_to) + pad_to := by ring
          omega
        have hqlt : offset / pad_to < buf.length / pad_to := by
          have h1 : pad_to * (offset / pad_to) < pad_to * (buf.length / pad_to) := by
            omega
          exact Nat.lt_of_mul_lt_mul_left h1
        have hnle : pad_to * (offset / pad_to + 1) ≤ pad_to * (buf.length / pad_to) :=
          Nat.mul_le_mul_left _ (by omega)
        constructor
        · rw [hneq]
          exact Nat.mul_mod_right _ _
        · omega
  · -- padding skipped: n = offset, and the skip condition forces
    -- offset % pad_to = 0 (or offset = 0, whose mod is also 0)
    rename_i hcond
    have hn : n = offset := by
      cases h
      rfl
    push_neg at hcond
    rcases Nat.eq_zero_or_pos offset with h0 | hop
    · subst hn
      rw [h0]
      exact ⟨Nat.zero_mod _, by omega⟩
    · have hge := hcond hop (by omega)
      have hr0 : offset % pad_to = 0 := by omega
      subst hn
      exact ⟨hr0, htot⟩

theorem padded_shape_bytes (I body : List Nat) (c0 c1 c2 c3 pad q : Nat) :
    ((I ++ ((c0 :: c1 :: c2 :: c3 :: body) ++
        (List.replicate (pad - 1) 0 ++ [q]))).getD I.length 0 = c0 ∧
      (I ++ ((c0 :: c1 :: c2 :: c3 :: body) ++
        (List.replicate (pad - 1) 0 ++ [q]))).getD (I.length + 2) 0 = c2 ∧
      (I ++ ((c0 :: c1 :: c2 :: c3 :: body) ++
        (List.replicate (pad - 1) 0 ++ [q]))).getD (I.length + 3) 0 = c3 ∧
      (∀ t, t < pad - 1 →
        (I ++ ((c0 :: c1 :: c2 :: c3 :: body) ++
          (List.replicate (pad - 1) 0 ++ [q]))).getD
            (I.length + (4 + body.length) + t) 0 = 0) ∧
      (I ++ ((c0 :: c1 :: c2 :: c3 :: body) ++
        (List.replicate (pad - 1) 0 ++ [q]))).getD
          (I.length + (4 + body.length) + (pad - 1)) 0 = q ∧
      (I ++ ((c0 :: c1 :: c2 :: c3 :: body) ++
        (List.replicate (pad - 1) 0 ++ [q]))).take I.length = I) := by
  have hrest : ∀ m, (I ++ ((c0 :: c1 :: c2 :: c3 :: body) ++
      (List.replicate (pad - 1) 0 ++ [q]))).getD (I.length + m) 0 =
      ((c0 :: c1 :: c2 :: c3 :: body) ++
        (List.replicate (pad - 1) 0 ++ [q])).getD m 0 := by
    intro m
    rw [getD_append_ge _ _ _ _ (by omega)]
    congr 1
    omega
  refine ⟨?_, ?_, ?_, ?_, ?_, ?_⟩
  · have h0 := hrest 0
    simpa using h0
  · have h2 := hrest 2
    simpa using h2
  · have h3 := hrest 3
    simpa using h3
  · intro t ht
    rw [show I.length + (4 + body.length) + t = I.length + (4 + body.length + t)
      by omega, hrest (4 + body.length + t),
      show 4 + body.length + t = body.length + t + 1 + 1 + 1 + 1 by omega]
    simp only [List.cons_append, List.getD_cons_succ]
    rw [getD_append_ge _ _ _ _ (by omega),
      show body.length + t - body.length = t by omega,
      getD_append_lt _ _ _ _ (by simpa using ht)]
    simp [List.getD, List.getElem?_replicate, ht]
  · rw [show I.length + (4 + body.length) + (pad - 1) =
      I.length + (4 + body.length + (pad - 1)) by omega,
      hrest (4 + body.length + (pad - 1)),
      show 4 + body.length + (pad - 1) = body.length + (pad - 1) + 1 + 1 + 1 + 1
        by omega]
    simp only [List.cons_append, List.getD_cons_succ]
    rw [getD_append_ge _ _ _ _ (by omega),
      show body.length + (pad - 1) - body.length = pad - 1 by omega,
      getD_append_ge _ _ _ _ (by simp)]
    simp
  · exact List.take_left' rfl

/-! ## The claims -/

/-- C1: for every byte buffer — zero-length, truncated, or arbitrary —
`read_packet` returns normally (`some`, i.e. no panic; the embedding reads
the buffer only through total `List` operations, so no access is out of
bounds), and its scan advances at most `buf.length / 4` iterations. -/
theorem C1_read_packet_safe (buf : List Nat) :
    ∃ r : List RtcpFb × Nat, read_packet buf = some r ∧ r.2 ≤ buf.length / 4 := by
  unfold read_packet
  exact read_packet_go_total (buf.length + 1) buf (by omega)

/-- C10: when rounding up does not overflow `usize`, `pad_bytes_to_word n`
is the least multiple of 4 that is at least `n`; in particular it is the
identity on multiples of 4. -/
theorem C10_pad_bytes_to_word_least (n : Nat) (h : n + 3 < usizeMod) :
    pad_bytes_to_word n % 4 = 0 ∧ n ≤ pad_bytes_to_word n ∧
      (∀ m, m % 4 = 0 → n ≤ m → pad_bytes_to_word n ≤ m) ∧
      (n % 4 = 0 → pad_bytes_to_word n = n) := by
  rw [pad_bytes_to_word_eq n h]
  refine ⟨by omega, by omega, ?_, by omega⟩
  intro m hm hnm
  omega

theorem C10_witness :
    5 + 3 < usizeMod ∧
      (pad_bytes_to_word 5 % 4 = 0 ∧ 5 ≤ pad_bytes_to_word 5 ∧
        (∀ m, m % 4 = 0 → 5 ≤ m → pad_bytes_to_word 5 ≤ m) ∧
        (5 % 4 = 0 → pad_bytes_to_word 5 = 5)) :=
  ⟨by decide, C10_pad_bytes_to_word_least 5 (by decide)⟩

/-- C3: with ample capacity (350 words), `pack` merges 4 single-report
receiver reports into exactly one receiver report carrying the 4 reports in
input order, and merges one sender report (holding `report(2)`) followed by
3 single-report receiver reports into exactly one sender report carrying 4
reports in order, the sender's own report first (the concrete `pack_4_rr`
and `pack_sr_4_rr` unit tests of `mod.rs`). -/
theorem C3_pack_merges_reports :
    RtcpFb.pack [exRR 1, exRR 2, exRR 3, exRR 4] 350 =
      some [RtcpFb.receiverReport ⟨[exReport 1, exReport 2, exReport 3, exReport 4]⟩] ∧
    RtcpFb.pack [exSR 1, exRR 3, exRR 4, exRR 5] 350 =
      some [RtcpFb.senderReport ⟨⟨1, 77, 4, 5, 6⟩,
        [exReport 2, exReport 3, exReport 4, exReport 5]⟩] := by
  constructor
  · rfl
  · rfl

/-- C6 counterexample: `pack` does not always return with a 0- or 1-element
queue unchanged: on the empty queue it panics (the `feedback[i]` access with
`i = 0` and `len - 1` wrapped around, modelled by `none`), and a queue
holding one empty receiver report is pruned to nothing by the final
`retain(|f| !f.is_empty())`. -/
theorem C6_counterexample :
    RtcpFb.pack [] 100 = none ∧
    RtcpFb.pack [exEmptyRR] 100 = some [] ∧
    RtcpFb.pack [exEmptyRR] 100 ≠ some [exEmptyRR] := by
  refine ⟨rfl, rfl, ?_⟩
  decide

/-- C6 amended: for a queue of length 1 the merging loop body never runs and
the only effect is the final `retain(!is_empty)` prune — the queue is
unchanged exactly when its one packet is not empty; for a queue of length 0
`pack` panics (out-of-bounds `feedback[0]`, from the wrapped `len - 1`). -/
theorem C6_pack_short_queue :
    (∀ cap, RtcpFb.pack [] cap = none) ∧
    (∀ p cap, RtcpFb.pack [p] cap = some (if p.is_empty then [] else [p])) := by
  constructor
  · intro cap
    unfold RtcpFb.pack RtcpFb.packGo
    rw [if_neg (by decide), if_pos (by decide)]
    rfl
  · intro p cap
    unfold RtcpFb.pack
    simp only [List.length_cons, List.length_nil]
    rw [show 32 * (0 + 1) + 2 = 33 + 1 from rfl, packGo_single]
    cases hp : p.is_empty <;> simp [List.filter, hp]

/-- C5 counterexample: when the first packet's `length_words()` alone exceeds
the capacity the pass is indeed aborted before any merge, but the queue is
not left unmodified: the `retain(!is_empty)` prune still runs after the
abort and removes the empty second packet. -/
theorem C5_counterexample :
    7 < (exRR 1).length_words ∧
    RtcpFb.pack [exRR 1, exEmptyRR] 7 = some [exRR 1] ∧
    RtcpFb.pack [exRR 1, exEmptyRR] 7 ≠ some [exRR 1, exEmptyRR] := by
  refine ⟨by decide, rfl, ?_⟩
  decide

/-- C5 amended: when the first packet is neither full nor empty and its
`length_words()` alone exceeds the word capacity, the `break 'outer` abort
fires on the first anchor, so nothing is merged or reordered — but the final
`retain(!is_empty)` prune still runs, so the result is the input queue with
(only) its empty packets removed. -/
theorem C5_abort_prunes_only (p : RtcpFb) (rest : List RtcpFb) (cap : Nat)
    (hlen : rest.length + 1 < usizeMod)
    (hnf : p.is_full = false) (hne : p.is_empty = false)
    (hcap : cap < p.length_words) :
    RtcpFb.pack (p :: rest) cap =
      some ((p :: rest).filter (fun f => !f.is_empty)) := by
  cases rest with
  | nil =>
    unfold RtcpFb.pack
    simp only [List.length_cons, List.length_nil]
    rw [show 32 * (0 + 1) + 2 = 33 + 1 from rfl, packGo_single]
    rfl
  | cons r rest' =>
    unfold RtcpFb.pack
    simp only [List.length_cons]
    rw [show 32 * (rest'.length + 1 + 1) + 2 = (32 * (rest'.length + 1 + 1) + 1) + 1
      from rfl]
    have h := packGo_abort (32 * (rest'.length + 1 + 1) + 1) cap p (r :: rest')
      (by simp) (by simpa using hlen) hnf hne hcap
    simp only [List.length_cons] at h
    rw [h]
    rfl

theorem C5_witness :
    ([exEmptyRR].length + 1 < usizeMod ∧ (exRR 1).is_full = false ∧
        (exRR 1).is_empty = false ∧ 7 < (exRR 1).length_words) ∧
      RtcpFb.pack [exRR 1, exEmptyRR] 7 =
        some (([exRR 1, exEmptyRR]).filter (fun f => !f.is_empty)) :=
  ⟨⟨by decide, by decide, by decide, by decide⟩,
    C5_abort_prunes_only (exRR 1) [exEmptyRR] 7 (by decide) (by decide)
      (by decide) (by decide)⟩

/-- C8: `append_all_possible` moves some prefix of the source onto the end
of the destination — so neither list is reordered and no item is split —
stopping only because the source is exhausted, the destination reached the
31-item cap, or the next item's word size would exceed the remaining
budget; the moved items' total word size never exceeds the budget, and a
destination within the cap stays within it. -/
theorem C8_append_all_possible_spec (ws : α → Nat) (self other : List α)
    (budget : Nat) (hself : self.length ≤ 31) :
    ∃ k ≤ other.length,
      append_all_possible ws self other budget =
        (self ++ other.take k, other.drop k, k) ∧
      ((other.take k).map ws).sum ≤ budget ∧
      (self ++ other.take k).length ≤ 31 ∧
      (k = other.length ∨ 31 ≤ self.length + k ∨
        ∃ x, (other.drop k).head? = some x ∧
          budget < ((other.take k).map ws).sum + ws x) := by
  obtain ⟨k, hk, heq, hsum, hcap, hstop⟩ := append_all_possible_spec ws self other budget
  refine ⟨k, hk, heq, hsum, ?_, hstop⟩
  simp only [List.length_append, List.length_take]
  rcases hcap with h | h
  · omega
  · subst h
    simp
    omega

theorem C8_witness :
    ([exReport 1].length ≤ 31) ∧
      ∃ k ≤ [exReport 2, exReport 3].length,
        append_all_possible ReceptionReport.word_size [exReport 1]
            [exReport 2, exReport 3] 100 =
          ([exReport 1] ++ [exReport 2, exReport 3].take k,
            [exReport 2, exReport 3].drop k, k) ∧
        (([exReport 2, exReport 3].take k).map ReceptionReport.word_size).sum ≤ 100 ∧
        ([exReport 1] ++ [exReport 2, exReport 3].take k).length ≤ 31 ∧
        (k = [exReport 2, exReport 3].length ∨ 31 ≤ [exReport 1].length + k ∨
          ∃ x, ([exReport 2, exReport 3].drop k).head? = some x ∧
            100 < (([exReport 2, exReport 3].take k).map
              ReceptionReport.word_size).sum + ReceptionReport.word_size x) :=
  ⟨by decide, C8_append_all_possible_spec ReceptionReport.word_size [exReport 1]
    [exReport 2, exReport 3] 100 (by decide)⟩

/-- C9: whenever `write_packet` returns normally, the returned byte count is
a multiple of `pad_to` and at most `len(buf)`: the drain loop only writes
while packets fit within `len(buf)` rounded down to a multiple of `pad_to`,
and the padding step raises a nonzero offset exactly to the next multiple of
`pad_to` without exceeding that rounded-down budget. -/
theorem C9_write_packet_bounds (q : List RtcpFb) (buf : List Nat) (pad_to n : Nat)
    (buf2 : List Nat) (rest : List RtcpFb)
    (h : write_packet q buf pad_to = some (n, buf2, rest)) :
    n % pad_to = 0 ∧ n ≤ buf.length - buf.length % pad_to ∧ n ≤ buf.length := by
  unfold write_packet at h
  split at h
  · exact absurd h (by simp)
  · split at h
    · exact absurd h (by simp)
    · rename_i hpt0 hpt4
      dsimp only at h
      cases hpack : RtcpFb.pack q ((buf.length - buf.length % pad_to) / 4) with
      | none =>
        rw [hpack] at h
        exact absurd h (by simp)
      | some packed =>
        rw [hpack] at h
        dsimp only at h
        cases hloop : write_loop packed buf (buf.length - buf.length % pad_to) 0 0 with
        | none =>
          rw [hloop] at h
          exact absurd h (by simp)
        | some r =>
          obtain ⟨offset, op, buf1, leftover⟩ := r
          rw [hloop] at h
          dsimp only at h
          cases hpad : pad_phase buf1 offset op pad_to with
          | none =>
            rw [hpad] at h
            exact absurd h (by simp)
          | some r2 =>
            obtain ⟨offset2, bufp⟩ := r2
            rw [hpad] at h
            dsimp only at h
            simp only [Option.some.injEq, Prod.mk.injEq] at h
            obtain ⟨hn, -, -⟩ := h
            subst hn
            have hoff : offset ≤ buf.length - buf.length % pad_to :=
              write_loop_offset_le packed buf _ 0 0 _ hloop (by omega)
            have hb1 : buf1.length = buf.length :=
              write_loop_buf_length packed buf _ 0 0 _ hloop
            rw [← hb1] at hoff
            have hb := pad_phase_bounds buf1 offset op pad_to offset2 bufp hpad
              (by omega) hoff
            rw [hb1] at hb
            exact ⟨hb.1, hb.2, by omega⟩

theorem C9_witness :
    (8 : Nat) % 4 = 0 ∧
      (8 : Nat) ≤ (List.replicate 16 0 : List Nat).length -
        (List.replicate 16 0 : List Nat).length % 4 ∧
      (8 : Nat) ≤ (List.replicate 16 0 : List Nat).length :=
  C9_write_packet_bounds [exBye 1] (List.replicate 16 0) 4 8
    [129, 203, 0, 1, 0, 0, 0, 1, 0, 0, 0, 0, 0, 0, 0, 0] [] (by rfl)

set_option maxRecDepth 40000 in
/-- C2 counterexample: the claimed write/read/pack equality fails for
`pad_to = 292` even though the buffer (292 bytes) holds the whole queue: the
required pad of `292 - 32 = 260` bytes is recorded in the final byte as
`pad as u8 = 4`, so re-parsing the written prefix does not recover the
packed queue. -/
theorem C2_counterexample :
    RtcpFb.pack [exRR 1] (((List.replicate 292 0 : List Nat).length -
        (List.replicate 292 0 : List Nat).length % 292) / 4) = some [exRR 1] ∧
    (write_packet [exRR 1] (List.replicate 292 0) 292).isSome = true ∧
    (write_packet [exRR 1] (List.replicate 292 0) 292).map
      (fun r => read_packet_list (r.2.1.take r.1)) ≠ some [exRR 1] := by
  refine ⟨rfl, rfl, ?_⟩
  decide

/-- C2 (amended: `pad_to ≤ 256`, so the pad count survives the `u8` cast;
the counterexample shows the unrestricted claim false): for a valid
non-empty queue and a buffer with room for the queue plus one padding block,
`write_packet` succeeds and drains everything, and `read_packet` applied to
the written prefix yields exactly the queue produced by `pack` at the same
word capacity. -/
theorem C2_write_read_roundtrip (q : List RtcpFb) (buf : List Nat) (pad_to : Nat)
    (hne : q ≠ []) (hq : q.all validFb = true)
    (hqlen : q.length < usizeMod) (hblen : buf.length < usizeMod)
    (hpt4 : 4 ≤ pad_to) (hptm : pad_to % 4 = 0) (hpt256 : pad_to ≤ 256)
    (hfits : sum_bytes q + pad_to ≤ buf.length) :
    ∃ packed n buf2,
      RtcpFb.pack q ((buf.length - buf.length % pad_to) / 4) = some packed ∧
      write_packet q buf pad_to = some (n, buf2, []) ∧
      read_packet_list (buf2.take n) = packed := by
  obtain ⟨packed, n, buf2, h1, -, h2, h3, -⟩ :=
    write_packet_roundtrip q buf pad_to hne hq hqlen hblen hpt4 hptm hpt256 hfits
  exact ⟨packed, n, buf2, h1, h2, h3⟩

theorem C2_witness :
    (([exBye 1, exBye 2] : List RtcpFb) ≠ [] ∧
      ([exBye 1, exBye 2] : List RtcpFb).all validFb = true ∧
      ([exBye 1, exBye 2] : List RtcpFb).length < usizeMod ∧
      (List.replicate 32 0 : List Nat).length < usizeMod ∧
      (4 : Nat) ≤ 16 ∧ (16 : Nat) % 4 = 0 ∧ (16 : Nat) ≤ 256 ∧
      sum_bytes [exBye 1, exBye 2] + 16 ≤ (List.replicate 32 0 : List Nat).length) ∧
    ∃ packed n buf2,
      RtcpFb.pack [exBye 1, exBye 2]
          (((List.replicate 32 0 : List Nat).length -
            (List.replicate 32 0 : List Nat).length % 16) / 4) = some packed ∧
      write_packet [exBye 1, exBye 2] (List.replicate 32 0) 16 =
        some (n, buf2, []) ∧
      read_packet_list (buf2.take n) = packed :=
  ⟨⟨by decide, by decide, by decide, by decide, by decide, by decide, by decide,
    by decide⟩,
    C2_write_read_roundtrip [exBye 1, exBye 2] (List.replicate 32 0) 16
      (by decide) (by decide) (by decide) (by decide) (by decide) (by decide)
      (by decide) (by decide)⟩

set_option maxRecDepth 40000 in
/-- C4 counterexample: the final padding byte is *not* always set to `pad`:
with `pad_to = 292` the computed pad is `292 - 32 = 260`, but the byte
written is `pad as u8 = 4`. -/
theorem C4_counterexample :
    292 - sum_bytes [exRR 1] % 292 = 260 ∧
    (write_packet [exRR 1] (List.replicate 292 0) 292).map
      (fun r => r.2.1.getD (r.1 - 1) 0) = some 4 ∧
    (4 : Nat) ≠ 260 := by
  exact ⟨rfl, rfl, by decide⟩

/-- C4 (amended: `pad_to ≤ 256`, so `pad as u8 = pad`; the counterexample
shows the unrestricted final-byte clause false): after the drain loop has
written `sum_bytes packed` bytes, the pad is `pad_to - offset % pad_to`, and
the padding branch runs exactly when the offset is not yet a multiple of
`pad_to` (with a non-empty result this is `offset > 0 ∧ 0 < pad < pad_to`).
Then the bytes of every packet but the last are untouched, the last packet's
first header byte gains the padding bit (`160 + rcount`), its 16-bit length
field grows by `pad / 4`, the pad bytes are zero-filled, the final byte is
set to `pad`, and re-parsing the written prefix recovers the packed queue
exactly — the padding is carried by the one last packet, never distributed. -/
theorem C4_padding_step (q : List RtcpFb) (buf : List Nat) (pad_to : Nat)
    (hne : q ≠ []) (hq : q.all validFb = true)
    (hqlen : q.length < usizeMod) (hblen : buf.length < usizeMod)
    (hpt4 : 4 ≤ pad_to) (hptm : pad_to % 4 = 0) (hpt256 : pad_to ≤ 256)
    (hfits : sum_bytes q + pad_to ≤ buf.length) :
    ∃ packed n buf2,
      write_packet q buf pad_to = some (n, buf2, []) ∧
      RtcpFb.pack q ((buf.length - buf.length % pad_to) / 4) = some packed ∧
      read_packet_list (buf2.take n) = packed ∧
      (sum_bytes packed % pad_to = 0 → n = sum_bytes packed) ∧
      (sum_bytes packed % pad_to ≠ 0 →
        ∃ hpne : packed ≠ [],
          n = sum_bytes packed + (pad_to - sum_bytes packed % pad_to) ∧
          buf2.take (sum_bytes packed.dropLast) =
            (packed.dropLast.map RtcpFb.write_to).flatten ∧
          buf2.getD (sum_bytes packed.dropLast) 0 =
            160 + (packed.getLast hpne).rcount ∧
          buf2.getD (sum_bytes packed.dropLast + 2) 0 =
            ((packed.getLast hpne).length_words - 1 +
              (pad_to - sum_bytes packed % pad_to) / 4) % 65536 / 256 ∧
          buf2.getD (sum_bytes packed.dropLast + 3) 0 =
            ((packed.getLast hpne).length_words - 1 +
              (pad_to - sum_bytes packed % pad_to) / 4) % 65536 % 256 ∧
          (∀ j, sum_bytes packed ≤ j → j + 1 < n → buf2.getD j 0 = 0) ∧
          buf2.getD (n - 1) 0 = pad_to - sum_bytes packed % pad_to) := by
  obtain ⟨packed, n, buf2, h1, hpv, h2, h3, -, -, h6, h7⟩ :=
    write_packet_roundtrip q buf pad_to hne hq hqlen hblen hpt4 hptm hpt256 hfits
  refine ⟨packed, n, buf2, h2, h1, h3, fun hc => (h6 hc).1, fun hc => ?_⟩
  obtain ⟨hpne, hn, hshape⟩ := h7 hc
  have hvl : validFb (packed.getLast hpne) = true :=
    List.all_eq_true.mp hpv _ (List.getLast_mem hpne)
  have hvi : packed.dropLast.all validFb = true := all_dropLast packed validFb hpv
  have hIlen : ((packed.dropLast.map RtcpFb.write_to).flatten).length =
      sum_bytes packed.dropLast := flat_bytes_length _ hvi
  have hWlen : (packed.getLast hpne).write_to.length =
      4 * (packed.getLast hpne).length_words :=
    (packed.getLast hpne).write_to_length hvl
  have hlw := (packed.getLast hpne).length_words_pos
  have hbody : (packed.getLast hpne).body_bytes.length =
      (packed.getLast hpne).length_words * 4 - 4 := by
    rw [write_to_cons] at hWlen
    simp at hWlen
    omega
  have hsum_split : sum_bytes packed = sum_bytes packed.dropLast +
      (packed.getLast hpne).length_words * 4 := by
    conv_lhs => rw [← List.dropLast_append_getLast hpne]
    rw [sum_bytes_append]
    unfold sum_bytes
    simp
  have hpt0 : 0 < pad_to := by omega
  have hslt : sum_bytes packed % pad_to < pad_to := Nat.mod_lt _ hpt0
  have hpad1 : 1 ≤ pad_to - sum_bytes packed % pad_to := by omega
  have hpadlt : pad_to - sum_bytes packed % pad_to < pad_to := by omega
  have hk : (pad_to - sum_bytes packed % pad_to) % 65536 =
      pad_to - sum_bytes packed % pad_to := Nat.mod_eq_of_lt (by omega)
  have hps : (pad_to - sum_bytes packed % pad_to) % 256 =
      pad_to - sum_bytes packed % pad_to := Nat.mod_eq_of_lt (by omega)
  unfold patch_pad at hshape
  rw [patch_header_write _ _ hvl, hk, hps] at hshape
  obtain ⟨hb0, hb2, hb3, hzeros, hfinal, htak⟩ :=
    padded_shape_bytes ((packed.dropLast.map RtcpFb.write_to).flatten)
      (packed.getLast hpne).body_bytes
      (160 + (packed.getLast hpne).rcount) (packed.getLast hpne).rtcp_type_code
      (((packed.getLast hpne).length_words - 1 +
        (pad_to - sum_bytes packed % pad_to) / 4) % 65536 / 256)
      (((packed.getLast hpne).length_words - 1 +
        (pad_to - sum_bytes packed % pad_to) / 4) % 65536 % 256)
      (pad_to - sum_bytes packed % pad_to) (pad_to - sum_bytes packed % pad_to)
  rw [← hshape] at hb0 hb2 hb3 hzeros hfinal htak
  have hoffeq : sum_bytes packed =
      ((packed.dropLast.map RtcpFb.write_to).flatten).length +
        (4 + (packed.getLast hpne).body_bytes.length) := by
    rw [hIlen, hbody]
    omega
  have hIle : ((packed.dropLast.map RtcpFb.write_to).flatten).length ≤ n := by omega
  refine ⟨hpne, hn, ?_, ?_, ?_, ?_, ?_, ?_⟩
  · rw [← hIlen, show buf2.take ((packed.dropLast.map RtcpFb.write_to).flatten).length =
      (buf2.take n).take ((packed.dropLast.map RtcpFb.write_to).flatten).length from by
        rw [List.take_take, Nat.min_eq_left hIle]]
    exact htak
  · rw [← hIlen, ← getD_take_lt buf2 n _ 0 (by omega)]
    exact hb0
  · rw [← hIlen, ← getD_take_lt buf2 n _ 0 (by omega)]
    exact hb2
  · rw [← hIlen, ← getD_take_lt buf2 n _ 0 (by omega)]
    exact hb3
  · intro j hj1 hj2
    rw [← getD_take_lt buf2 n _ 0 (by omega),
      show j = ((packed.dropLast.map RtcpFb.write_to).flatten).length +
        (4 + (packed.getLast hpne).body_bytes.length) + (j - sum_bytes packed)
        from by omega]
    exact hzeros _ (by omega)
  · rw [← getD_take_lt buf2 n _ 0 (by omega),
      show n - 1 = ((packed.dropLast.map RtcpFb.write_to).flatten).length +
        (4 + (packed.getLast hpne).body_bytes.length) +
        ((pad_to - sum_bytes packed % pad_to) - 1) from by omega]
    exact hfinal

theorem C4_witness :
    (([exBye 1] : List RtcpFb) ≠ [] ∧
      ([exBye 1] : List RtcpFb).all validFb = true ∧
      ([exBye 1] : List RtcpFb).length < usizeMod ∧
      (List.replicate 32 0 : List Nat).length < usizeMod ∧
      (4 : Nat) ≤ 16 ∧ (16 : Nat) % 4 = 0 ∧ (16 : Nat) ≤ 256 ∧
      sum_bytes [exBye 1] + 16 ≤ (List.replicate 32 0 : List Nat).length) ∧
    ∃ packed n buf2,
      write_packet [exBye 1] (List.replicate 32 0) 16 = some (n, buf2, []) ∧
      RtcpFb.pack [exBye 1]
        (((List.replicate 32 0 : List Nat).length -
          (List.replicate 32 0 : List Nat).length % 16) / 4) = some packed ∧
      read_packet_list (buf2.take n) = packed ∧
      (sum_bytes packed % 16 = 0 → n = sum_bytes packed) ∧
      (sum_bytes packed % 16 ≠ 0 →
        ∃ hpne : packed ≠ [],
          n = sum_bytes packed + (16 - sum_bytes packed % 16) ∧
          buf2.take (sum_bytes packed.dropLast) =
            (packed.dropLast.map RtcpFb.write_to).flatten ∧
          buf2.getD (sum_bytes packed.dropLast) 0 =
            160 + (packed.getLast hpne).rcount ∧
          buf2.getD (sum_bytes packed.dropLast + 2) 0 =
            ((packed.getLast hpne).length_words - 1 +
              (16 - sum_bytes packed % 16) / 4) % 65536 / 256 ∧
          buf2.getD (sum_bytes packed.dropLast + 3) 0 =
            ((packed.getLast hpne).length_words - 1 +
              (16 - sum_bytes packed % 16) / 4) % 65536 % 256 ∧
          (∀ j, sum_bytes packed ≤ j → j + 1 < n → buf2.getD j 0 = 0) ∧
          buf2.getD (n - 1) 0 = 16 - sum_bytes packed % 16) :=
  ⟨⟨by decide, by decide, by decide, by decide, by decide, by decide, by decide,
    by decide⟩,
    C4_padding_step [exBye 1] (List.replicate 32 0) 16
      (by decide) (by decide) (by decide) (by decide) (by decide) (by decide)
      (by decide) (by decide)⟩

/-- C7: the two failure classes of `read_packet`'s scan are separated.  A
framing-level error — header parse failure, a length field reaching past the
remaining buffer, or a padding count exceeding the sub-packet length — stops
the scan and returns the packets accumulated so far (the loop `break`,
modelled by the empty continuation `([], 0)`; never a hard failure), whereas
a content-level decode failure (a `TryFrom` error, including an unsupported
packet kind) drops only that one sub-packet: nothing is added and the scan
continues at `full_length` — not `unpadded_length` — past its start (the
last conjunct shows this for a padded sub-packet, whose `unpadded_length` is
strictly smaller). -/
theorem C7_failure_classes (fuel : Nat) (buf : List Nat) (header : RtcpHeader)
    (pad : Nat) :
    (buf.isEmpty = false → try_header buf = none →
      read_packet_go (fuel + 1) buf = some ([], 0)) ∧
    (try_header buf = some header → buf.length < header.length_words * 4 →
      read_packet_go (fuel + 1) buf = some ([], 0)) ∧
    (try_header buf = some header → header.length_words * 4 ≤ buf.length →
      0 < buf.headD 0 &&& 32 →
      buf.get? (header.length_words * 4 - 1) = some pad →
      header.length_words * 4 < pad →
      read_packet_go (fuel + 1) buf = some ([], 0)) ∧
    (try_header buf = some header → header.length_words * 4 ≤ buf.length →
      buf.headD 0 &&& 32 = 0 →
      try_from (buf.take (header.length_words * 4)) = none →
      read_packet_go (fuel + 1) buf =
        (read_packet_go fuel (buf.drop (header.length_words * 4))).map
          (fun r => (r.1, r.2 + 1))) ∧
    (try_header buf = some header → header.length_words * 4 ≤ buf.length →
      0 < buf.headD 0 &&& 32 →
      buf.get? (header.length_words * 4 - 1) = some pad →
      pad ≤ header.length_words * 4 →
      try_from (buf.take (header.length_words * 4 - pad)) = none →
      read_packet_go (fuel + 1) buf =
        (read_packet_go fuel (buf.drop (header.length_words * 4))).map
          (fun r => (r.1, r.2 + 1))) := by
  have hne_of_th : ∀ h, try_header buf = some h → buf.isEmpty = false := by
    intro h hth
    cases buf with
    | nil => simp [try_header] at hth
    | cons a t => rfl
  refine ⟨?_, ?_, ?_, ?_, ?_⟩
  · intro he hth
    unfold read_packet_go
    rw [if_neg (by simp [he]), hth]
  · intro hth hlen
    unfold read_packet_go
    rw [if_neg (by simp [hne_of_th header hth]), hth]
    dsimp only
    rw [if_pos hlen]
  · intro hth hlen hpb hget hplt
    unfold read_packet_go
    rw [if_neg (by simp [hne_of_th header hth]), hth]
    dsimp only
    rw [if_neg (by omega), if_pos hpb, hget]
    dsimp only
    rw [if_pos ⟨hpb, hplt⟩]
  · intro hth hlen hnp htf
    conv_lhs => unfold read_packet_go
    rw [if_neg (by simp [hne_of_th header hth]), hth]
    dsimp only
    rw [if_neg (by omega), hnp]
    simp only [lt_self_iff_false, false_and, if_false]
    rw [if_neg (by omega), htf]
  · intro hth hlen hpb hget hple htf
    conv_lhs => unfold read_packet_go
    rw [if_neg (by simp [hne_of_th header hth]), hth]
    dsimp only
    rw [if_neg (by omega), if_pos hpb, hget]
    dsimp only
    rw [if_neg (by rintro ⟨-, h⟩; omega)]
    rw [if_pos hpb, if_neg (by omega), htf]

theorem C7_witness :
    read_packet_go 2 [0, 200, 0, 1] = some ([], 0) ∧
    read_packet_go 2 [128, 200, 0, 3] = some ([], 0) ∧
    read_packet_go 2 [160, 203, 0, 1, 0, 0, 0, 9] = some ([], 0) ∧
    read_packet_go 2 [128, 204, 0, 1, 0, 0, 0, 0] =
      (read_packet_go 1 (([128, 204, 0, 1, 0, 0, 0, 0] : List Nat).drop
        ((⟨0, 204, 1⟩ : RtcpHeader).length_words * 4))).map
        (fun r => (r.1, r.2 + 1)) ∧
    read_packet_go 2 [160, 204, 0, 1, 0, 0, 0, 4] =
      (read_packet_go 1 (([160, 204, 0, 1, 0, 0, 0, 4] : List Nat).drop
        ((⟨0, 204, 1⟩ : RtcpHeader).length_words * 4))).map
        (fun r => (r.1, r.2 + 1)) :=
  ⟨(C7_failure_classes 1 [0, 200, 0, 1] ⟨0, 0, 0⟩ 0).1 (by decide) (by decide),
    (C7_failure_classes 1 [128, 200, 0, 3] ⟨0, 200, 3⟩ 0).2.1 (by decide) (by decide),
    (C7_failure_classes 1 [160, 203, 0, 1, 0, 0, 0, 9] ⟨0, 203, 1⟩ 9).2.2.1
      (by decide) (by decide) (by decide) (by decide) (by decide),
    (C7_failure_classes 1 [128, 204, 0, 1, 0, 0, 0, 0] ⟨0, 204, 1⟩ 0).2.2.2.1
      (by decide) (by decide) (by decide) (by decide),
    (C7_failure_classes 1 [160, 204, 0, 1, 0, 0, 0, 4] ⟨0, 204, 1⟩ 4).2.2.2.2
      (by decide) (by decide) (by decide) (by decide) (by decide) (by decide)⟩

end Rtcp
